import Mathlib

/-!
Verification of the allocators repository: a fixed-size block pool
(PoolAllocator in pool_allocator.h), a chained pool built on top of it
(PoolAllocatorChain in pool_allocator_chain.h) and a stack region allocator
(StackAllocatorImpl).  Only the single-threaded variants are modelled; the
claims under study all concern them.
-/

namespace Allocators

/-!
## Block pool

Shallow embedding of PoolAllocator with template parameters bytes and align
and thread_safe = false (the sized variant of pool_allocator.h).  The backing
buffer holds capacity cells; a cell is identified by its index, and the
one-past-the-end sentinel is index capacity.  Each cell stores the intrusive
free-list link, the next field of AllocationHolder, in its first machine word;
the code never tags which alternative currently inhabits a cell, so the model
does not either.  Placement-construction of the empty AllocationOnly marker in
alloc touches no modelled byte.
-/

structure Pool where
  capacity : Nat
  cells : List Nat
  current : Nat
deriving Repr, DecidableEq

/-- Links written by the constructor loop: cell i points at cell i + 1. -/
def initCells (n : Nat) : List Nat := (List.range n).map (fun i => i + 1)

/-- Constructor of PoolAllocator: every cell is chained onto its successor and
current points at cell 0. -/
def Pool.init (n : Nat) : Pool := ⟨n, initCells n, 0⟩

/-- Method nospace: current equals the one-past-the-end sentinel. -/
def Pool.nospace (p : Pool) : Bool := p.current == p.capacity

/-- Methods fetch_add and alloc: when current is not the sentinel the head cell
is handed out and current advances along the stored link; otherwise the result
is null and nothing changes. -/
def Pool.alloc (p : Pool) : Option Nat × Pool :=
  if p.current = p.capacity then (none, p)
  else (some p.current, { p with current := p.cells.getD p.current 0 })

/-- Methods free and fetch_sub: id is the ptrdiff between the passed pointer
and the buffer base, in cells.  In range: the current head is written into the
link of cell id, cell id becomes the new head and free returns true.  Out of
range: false, no mutation.  The code never checks whether the cell was
actually allocated. -/
def Pool.free (p : Pool) (id : Int) : Bool × Pool :=
  if 0 ≤ id ∧ id < (p.capacity : Int) then
    (true, { p with cells := p.cells.set id.toNat p.current, current := id.toNat })
  else (false, p)

/-- Repeated allocation, discarding results. -/
def Pool.allocN (p : Pool) : Nat → Pool
  | 0 => p
  | k + 1 => ((p.allocN k).alloc).2

/-- Scripts over a block pool, used for the concrete spec scenarios. -/
inductive PAct where
  | alloc : PAct
  | free : Int → PAct
deriving Repr, DecidableEq

/-- Run a script, collecting the result of every alloc in order. -/
def Pool.exec : Pool → List PAct → Pool × List (Option Nat)
  | p, [] => (p, [])
  | p, PAct.alloc :: r =>
    let a := p.alloc
    let e := Pool.exec a.2 r
    (e.1, a.1 :: e.2)
  | p, PAct.free i :: r => Pool.exec (p.free i).2 r

/-!
### Addresses

The constructor calls malloc for capacity * element_size + (align - 1) bytes
and rounds the buffer base up to the alignment; cell i then sits at
base + i * element_size with element_size = max bytes (sizeof AllocationHolder)
and sizeof AllocationHolder = 8 on LP64 targets.
-/

/-- Round x up to a multiple of a.  Models the mask arithmetic
(x + (a - 1)) and-not (a - 1) used by the source for a power of two a. -/
def alignUp (x a : Nat) : Nat := (x + (a - 1)) - (x + (a - 1)) % a

/-- Method element_size: bytes if larger than sizeof AllocationHolder (8),
else 8. -/
def elemSize (bytes : Nat) : Nat := max bytes 8

/-- Address of cell i for a pool built over a malloc result raw. -/
def cellAddr (raw bytes align i : Nat) : Nat := alignUp raw align + i * elemSize bytes

/-!
## Claim C2: the block pool free list is LIFO

Conclusion proposition: allocate pops the head and follows its link, release
pushes the released cell, and the capacity-3 scenario of the spec replays
exactly (cells a, b, c are indices 0, 1, 2).
-/

def lifoScript : List PAct :=
  [PAct.alloc, PAct.alloc, PAct.alloc, PAct.free 1, PAct.alloc,
   PAct.free 2, PAct.free 0, PAct.alloc, PAct.alloc]

def BlockPoolLifoConc (p : Pool) (id : Nat) : Prop :=
  p.alloc = (some p.current, { p with current := p.cells.getD p.current 0 }) ∧
  p.free (id : Int) = (true, { p with cells := p.cells.set id p.current, current := id }) ∧
  (Pool.exec (Pool.init 3) lifoScript).2 = [some 0, some 1, some 2, some 1, some 0, some 2]

/-!
## Claim C3: block pool exhaustion

After n allocations from a fresh pool of capacity n the head is the sentinel,
nospace holds and the next allocate returns null; after a release of any cell
id the pool is no longer full and the next allocate returns exactly id; every
release of an in-range cell leaves the pool non-full.
-/

def BlockPoolExhaustConc (n id : Nat) : Prop :=
  ((Pool.init n).allocN n).current = n ∧
  ((Pool.init n).allocN n).nospace = true ∧
  (((Pool.init n).allocN n).alloc).1 = none ∧
  ((((Pool.init n).allocN n).free (id : Int)).2).nospace = false ∧
  (((((Pool.init n).allocN n).free (id : Int)).2).alloc).1 = some id ∧
  (∀ p : Pool, ∀ j : Nat, j < p.capacity → ((p.free (j : Int)).2).nospace = false)

/-!
## Claim C8: release return value and foreign pointers

For a pointer at cell offset id (ptrdiff against the buffer base): in range the
cell is pushed and free returns true; outside the range free returns false and
neither head nor any cell changes.
-/

def BlockPoolFreeRangeSpec (p : Pool) (id : Int) : Prop :=
  (0 ≤ id ∧ id < (p.capacity : Int) →
    p.free id = (true, { p with cells := p.cells.set id.toNat p.current, current := id.toNat })) ∧
  (¬(0 ≤ id ∧ id < (p.capacity : Int)) → p.free id = (false, p))

/-!
## Claim C10: double release is not detected

The free path never inspects whether the cell is currently allocated: any
in-range id is accepted, returns true and becomes the new head.  The concrete
part releases cell 0 twice on a capacity-2 pool; the second release also
returns true and leaves cell 0 linked to itself.
-/

def BlockPoolDoubleFreeSpec (p : Pool) (id : Nat) : Prop :=
  (p.free (id : Int)).1 = true ∧
  ((p.free (id : Int)).2).current = id ∧
  ((p.free (id : Int)).2).cells = p.cells.set id p.current ∧
  (let p1 := (((Pool.init 2).alloc).2.free 0).2
   (((Pool.init 2).alloc).2.free 0).1 = true ∧
   (p1.free 0).1 = true ∧ ((p1.free 0).2).current = 0 ∧ ((p1.free 0).2).cells = [0, 2])

/-!
## Stack region allocator

Shallow embedding of StackAllocatorImpl with parameters sizeInBytes and
top_down (stack_allocator.h).  The state is the single head offset into the
fixed buffer; clear initialises head to sizeInBytes for the top-down variant
and to 0 for the bottom-up one.  The debug asserts of the source are not
modelled; the scenarios stay inside the asserted ranges.
-/

structure Stack where
  size : Nat
  topDown : Bool
  head : Nat
deriving Repr, DecidableEq

/-- Constructor: stores the buffer and calls clear. -/
def Stack.init (size : Nat) (topDown : Bool) : Stack :=
  ⟨size, topDown, if topDown then size else 0⟩

/-- Method alloc: bump the head down (top-down) or up (bottom-up) by the
requested byte count, returning the offset of the allocation. -/
def Stack.alloc (s : Stack) (bytes : Nat) : Nat × Stack :=
  if s.topDown then (s.head - bytes, { s with head := s.head - bytes })
  else (s.head, { s with head := s.head + bytes })

/-- Method free: rewind the head to a previously recorded marker. -/
def Stack.free (s : Stack) (marker : Nat) : Stack := { s with head := marker }

/-- Method freeBytesCount. -/
def Stack.freeBytesCount (s : Stack) : Nat :=
  if s.topDown then s.head else s.size - s.head

/-- State of the 1024-byte top-down scenario right after the scope exits: take
marker m0, allocate 100 bytes, record the scope marker, allocate 200 bytes,
rewind to the scope marker (the StackScope destructor calls free with the head
recorded at scope entry). -/
def scopeScenarioEnd : Stack :=
  let s0 := Stack.init 1024 true
  let s1 := (s0.alloc 100).2
  let m1 := s1.head
  let s2 := (s1.alloc 200).2
  s2.free m1

/-!
## Chained pool

Shallow embedding of PoolAllocatorChain with thread_safe = false
(pool_allocator_chain.h).  Chunks (PoolChunk records) live inside the
meta-pool, a block pool of poolsCount records; a chunk is identified by its
slot index there, which stands for the chunk pointer of the source.  Each
chunk owns an inner block pool of poolCapacity cells, instantiated at
kAllocationSize and kAllocationAlign; the caller-visible address of an
allocation is the pair of the owning slot and the cell index inside that
chunk.  Each cell additionally stores, past the payload and disjoint from the
intrusive free-list link, the trailing metadata record with the owning chunk
pointer; the model keeps those per-cell metadata words in the field metaArr of
the chunk (same memory, disjoint byte ranges).  The live-allocation counter of
a chunk is a uint32; its increment and decrement wrap modulo 2 to the 32.
-/

def u32Mod : Nat := 4294967296

/-- Wrapping uint32 increment of the chunk counter. -/
def inc32 (n : Nat) : Nat := (n + 1) % u32Mod

/-- Wrapping uint32 decrement of the chunk counter. -/
def dec32 (n : Nat) : Nat := (n + (u32Mod - 1)) % u32Mod

structure Chunk where
  pool : Pool
  allocations : Nat
  metaArr : List Nat
deriving Repr, DecidableEq

/-- Value read from a slot that holds no chunk; never reached on the traces of
the claims, which only touch live slots. -/
def defaultChunk : Chunk := ⟨⟨0, [], 0⟩, 0, []⟩

/-- Chunk as constructed by create: a fresh inner pool (whose constructor
chains all cells), counter 0, metadata words indeterminate (modelled as 0). -/
def freshChunk (pc : Nat) : Chunk := ⟨Pool.init pc, 0, List.replicate pc 0⟩

structure Chain where
  poolCapacity : Nat
  meta : Pool
  store : List (Option Chunk)
  chain : List Nat
  reserved : Option Nat
deriving Repr, DecidableEq

def Chain.getChunk (c : Chain) (s : Nat) : Chunk := (c.store.getD s none).getD defaultChunk

def Chain.setChunk (c : Chain) (s : Nat) (ch : Chunk) : Chain :=
  { c with store := c.store.set s (some ch) }

/-- Constructor PoolAllocatorChain(poolCapacity, poolsCount): build the
meta-pool and create the initial chunk in it.  The degenerate poolsCount = 0
case (where create would return null) yields an empty chain. -/
def Chain.init (pc ps : Nat) : Chain :=
  match (Pool.init ps).alloc with
  | (some s, m) => ⟨pc, m, (List.replicate ps none).set s (some (freshChunk pc)), [s], none⟩
  | (none, m) => ⟨pc, m, List.replicate ps none, [], none⟩

/-- Metadata word stored in the cell that address a points into; the source
reads it through AlignmentInfo::metaInfo at the fixed offset past the
payload. -/
def Chain.metaAt (c : Chain) (a : Nat × Nat) : Nat :=
  ((c.store.getD a.1 none).getD defaultChunk).metaArr.getD a.2 0

/-- Allocation from the chunk in slot s: pop a cell from its inner pool, stamp
the owning slot into the metadata word of that cell and bump the counter.  On
the promote and create paths of the source the counter is incremented without
a null check of the inner alloc result; the none branch models that (it is
reached only for a zero-capacity chunk, where the source would also write
metadata through a null pointer, which the model omits). -/
def Chain.allocInto (c : Chain) (s : Nat) : Option (Nat × Nat) × Chain :=
  let ch := c.getChunk s
  match ch.pool.alloc with
  | (some i, p) => (some (s, i), c.setChunk s ⟨p, inc32 ch.allocations, ch.metaArr.set i s⟩)
  | (none, p) => (none, c.setChunk s ⟨p, inc32 ch.allocations, ch.metaArr⟩)

/-- Method alloc of the chained pool: walk the active list and serve from the
first chunk whose inner alloc succeeds (a failed inner alloc mutates nothing,
so this equals serving the first chunk that is not full); otherwise promote
the reserved chunk into the active list if present, else create a fresh chunk
through the meta-pool if it has room, and serve from the appended chunk;
otherwise return null. -/
def Chain.alloc (c : Chain) : Option (Nat × Nat) × Chain :=
  match c.chain.find? (fun s => !(c.getChunk s).pool.nospace) with
  | some s => c.allocInto s
  | none =>
    match c.reserved with
    | some r => Chain.allocInto { c with chain := c.chain ++ [r], reserved := none } r
    | none =>
      if c.meta.nospace then (none, c)
      else
        match c.meta.alloc with
        | (some s, m) =>
          Chain.allocInto
            { c with meta := m,
                     store := c.store.set s (some (freshChunk c.poolCapacity)),
                     chain := c.chain ++ [s] } s
        | (none, m) => (none, { c with meta := m })

/-- Method destroy of the meta-pool applied to a chunk record: run the chunk
destructor (its inner buffer disappears; the slot is cleared in the model) and
push the record back onto the meta-pool free list. -/
def Chain.destroyChunk (c : Chain) (r : Nat) : Chain :=
  { c with meta := ((c.meta.free (r : Int))).2, store := c.store.set r none }

/-- Method setReservedPool: destroy the previously reserved chunk when it is a
different one, remove the retiring chunk from the active list (std::list
remove erases every element equal to it) and install it as reserved. -/
def Chain.setReservedPool (c : Chain) (s : Nat) : Chain :=
  let c1 := match c.reserved with
    | some r => if r ≠ s then c.destroyChunk r else c
    | none => c
  { c1 with chain := c1.chain.filter (fun x => x != s), reserved := some s }

/-- Method free of the chained pool: read the owning chunk from the metadata
record of the passed address, release the cell into that chunk, decrement its
counter and retire the chunk when the counter reaches 0.  The cell offset the
inner free computes is the ptrdiff against the buffer of the metadata chunk;
buffers of distinct chunks are disjoint malloc regions, so the offset is in
range exactly when the metadata names the chunk the address points into, and
then it equals the cell index. -/
def Chain.free (c : Chain) (a : Nat × Nat) : Bool × Chain :=
  let m := c.metaAt a
  let ch := c.getChunk m
  let off : Int := if m = a.1 then (a.2 : Int) else -1
  match ch.pool.free off with
  | (true, p) =>
    let n := dec32 ch.allocations
    let c1 := c.setChunk m ⟨p, n, ch.metaArr⟩
    (true, if n = 0 then c1.setReservedPool m else c1)
  | (false, _) => (false, c)

/-- Method create of the chained pool is alloc followed by caller-side
placement construction, which touches no allocator state. -/
def Chain.create (c : Chain) : Option (Nat × Nat) × Chain := c.alloc

/-- Method destroy of the chained pool runs the payload destructor and then
takes exactly the free path through the allocator state. -/
def Chain.destroy (c : Chain) (a : Nat × Nat) : Bool × Chain := c.free a

/-- Method used_memory.  The source adds a constant term (list header, the
reserved pointer, two size_t fields and the meta-pool footprint), the chunk
footprint recorded at construction for every chunk in the active list or in
the reserved slot, and one list-node pointer per active chunk.  The constant
term, the pointer size and the chunk footprint are target ABI constants,
passed here as parameters. -/
def Chain.used_memory (c : Chain) (staticMem ptrSize chunkMem : Nat) : Nat :=
  staticMem + (c.chain.length + (if c.reserved.isSome then 1 else 0)) * chunkMem +
    c.chain.length * ptrSize

/-- Scripts over a chained pool. -/
inductive COp where
  | alloc : COp
  | free : Nat → Nat → COp
deriving Repr, DecidableEq

/-- Run a script, collecting the result of every alloc in order. -/
def Chain.exec : Chain → List COp → Chain × List (Option (Nat × Nat))
  | c, [] => (c, [])
  | c, COp.alloc :: r =>
    let a := c.alloc
    let e := Chain.exec a.2 r
    (e.1, a.1 :: e.2)
  | c, COp.free s i :: r => Chain.exec ((c.free (s, i)).2) r

/-- Run a script for its final state only. -/
def Chain.run : Chain → List COp → Chain
  | c, [] => c
  | c, COp.alloc :: r => Chain.run (c.alloc).2 r
  | c, COp.free s i :: r => Chain.run ((c.free (s, i)).2) r

/-!
## Free-list representation

poolRep cells cap cur fl holds when walking the intrusive links from cur
visits exactly the cells of fl in order and ends at the sentinel cap.  The
cells of fl are the free cells of the pool; every other index below cap is a
live allocation.
-/

def poolRep (cells : List Nat) (cap : Nat) : Nat → List Nat → Bool
  | cur, [] => cur == cap
  | cur, i :: rest => cur == i && decide (i < cap) && poolRep cells cap (cells.getD i 0) rest

/-!
## Chunk well-formedness

A chunk in slot s is well-formed with free list fl when its inner pool
represents fl, the counter equals the number of live cells and the metadata
word of every live cell names s.
-/

def ChunkWF (pc s : Nat) (ch : Chunk) (fl : List Nat) : Prop :=
  poolRep ch.pool.cells pc ch.pool.current fl = true ∧
  fl.Nodup ∧
  ch.pool.capacity = pc ∧
  ch.pool.cells.length = pc ∧
  ch.metaArr.length = pc ∧
  fl.length ≤ pc ∧
  ch.allocations = pc - fl.length ∧
  (∀ i, i < pc → i ∉ fl → ch.metaArr.getD i 0 = s)

/-!
## Chained pool invariant

The inductive invariant of the single-threaded chained pool: slot indices are
in range and distinct, the meta-pool free list is exactly the set of slots
that hold no chunk, every chunk in the active list or the reserved slot is
well-formed, the reserved chunk (at most one, by the type of the field) is
empty, every active chunk except a pristine initial one has a positive
counter, and the structure never becomes entirely empty.
-/

def Chain.liveSlot (c : Chain) (s : Nat) : Prop := s ∈ c.chain ∨ c.reserved = some s

structure ChainInv (c : Chain) : Prop where
  pcPos : 0 < c.poolCapacity
  pcLt : c.poolCapacity < u32Mod
  storeLen : c.store.length = c.meta.capacity
  metaLen : c.meta.cells.length = c.meta.capacity
  chainNodup : c.chain.Nodup
  chainLt : ∀ s ∈ c.chain, s < c.meta.capacity
  resOk : ∀ r, c.reserved = some r → r < c.meta.capacity ∧ r ∉ c.chain
  metaRep : ∃ mfl, poolRep c.meta.cells c.meta.capacity c.meta.current mfl = true ∧
      mfl.Nodup ∧ (∀ s, s < c.meta.capacity → (s ∈ mfl ↔ ¬ c.liveSlot s))
  chunkWF : ∀ s, c.liveSlot s →
      ∃ ch fl, c.store.getD s none = some ch ∧ ChunkWF c.poolCapacity s ch fl
  resEmpty : ∀ r, c.reserved = some r → ∃ ch fl, c.store.getD r none = some ch ∧
      ChunkWF c.poolCapacity r ch fl ∧ fl.length = c.poolCapacity
  storeNone : ∀ s, ¬ c.liveSlot s → c.store.getD s none = none
  countPos : (∀ s ∈ c.chain, 1 ≤ (c.getChunk s).allocations) ∨
      (∃ s, c.chain = [s] ∧ (c.getChunk s).allocations = 0 ∧ c.reserved = none)
  chainNE : c.chain ≠ [] ∨ c.reserved.isSome = true

/-- Address of a live allocation: the slot holds a well-formed chunk and the
cell is below capacity and not on the free list. -/
def LiveAddr (c : Chain) (a : Nat × Nat) : Prop :=
  c.liveSlot a.1 ∧ a.2 < c.poolCapacity ∧
  ∃ ch fl, c.store.getD a.1 none = some ch ∧ ChunkWF c.poolCapacity a.1 ch fl ∧ a.2 ∉ fl

/-- Trace validity: every free in the script releases an address that is live
at that point; this is the caller contract of the spec (release only what was
allocated and not yet released). -/
def Chain.validOps : Chain → List COp → Prop
  | _, [] => True
  | c, COp.alloc :: r => Chain.validOps (c.alloc).2 r
  | c, COp.free s i :: r => LiveAddr c (s, i) ∧ Chain.validOps ((c.free (s, i)).2) r

/-- Balanced end state: every alloc of the trace has been matched by a free,
so every live chunk has counter 0. -/
def Chain.allFreed (c : Chain) : Prop :=
  ∀ s, c.liveSlot s → (c.getChunk s).allocations = 0

/-- Every chunk of the active list has a positive live counter.  This holds
after every allocation and is preserved by every operation; it fails only in
the pristine post-construction state, whose initial chunk has counter 0. -/
def Chain.allLivePos (c : Chain) : Prop :=
  ∀ s ∈ c.chain, 1 ≤ (c.getChunk s).allocations

/-!
## Metadata layout constants

AlignmentInfo of pool_allocator_chain.h on an LP64 target:
PoolChainAllocationMetaInfo holds a single pointer, so its size and alignment
are 8; kMetaAlignMask is 7; kAllocationSize rounds size + 8 up to a multiple
of 8; kAllocationAlign is the maximum of the requested alignment and 8;
metaInfo(m) is the address (m + size + 7) masked down to a multiple of 8.
-/

def metaAlign : Nat := 8

def metaSize : Nat := 8

def kAllocationSize (size : Nat) : Nat := alignUp (size + metaSize) metaAlign

def kAllocationAlign (align : Nat) : Nat := max align metaAlign

/-- Offset of the metadata record inside a cell whose base is 8-aligned. -/
def metaOffset (size : Nat) : Nat := alignUp size metaAlign

/-- Address computed by AlignmentInfo::metaInfo for a payload pointer p. -/
def metaInfoAddr (p size : Nat) : Nat := alignUp (p + size) metaAlign

/-!
## Claim C1: allocation policy of the chained pool

First chunk with capacity; otherwise promote reserved; otherwise create
through the meta-pool; null exactly when all three fail; and the concrete
cap scenario with chunk capacity 2 and at most 2 chunks.
-/

def capScenario : List COp :=
  [COp.alloc, COp.alloc, COp.alloc, COp.alloc, COp.alloc, COp.free 0 1, COp.alloc]

def ChainAllocPolicy (c : Chain) : Prop :=
  (∀ s, s ∈ c.chain → (c.getChunk s).pool.nospace = false →
    ∃ s0 l1 l2, c.chain = l1 ++ s0 :: l2 ∧
      (∀ t ∈ l1, (c.getChunk t).pool.nospace = true) ∧
      (c.getChunk s0).pool.nospace = false ∧
      (c.alloc).1 = some (s0, (c.getChunk s0).pool.current)) ∧
  ((∀ s ∈ c.chain, (c.getChunk s).pool.nospace = true) →
    ∀ r, c.reserved = some r →
      (c.alloc).1 = some (r, (c.getChunk r).pool.current) ∧
      (c.alloc).2.chain = c.chain ++ [r]) ∧
  ((∀ s ∈ c.chain, (c.getChunk s).pool.nospace = true) → c.reserved = none →
    c.meta.nospace = false →
      ∃ s, ¬ c.liveSlot s ∧ (c.alloc).1 = some (s, 0) ∧
        (c.alloc).2.chain = c.chain ++ [s]) ∧
  ((c.alloc).1 = none ↔
    ((∀ s ∈ c.chain, (c.getChunk s).pool.nospace = true) ∧ c.reserved = none ∧
      c.meta.nospace = true)) ∧
  (Chain.exec (Chain.init 2 2) capScenario).2 =
    [some (0, 0), some (0, 1), some (1, 0), some (1, 1), none, some (0, 1)]

/-!
## Claim C4: the reserved slot invariant

The invariant is preserved by alloc, free, create and destroy; the reserved
chunk is unique and empty; a free that drops a chunk counter to zero retires
the chunk into the reserved slot, destroying the previous occupant; an
allocation that finds no capacity reuses the reserved chunk without touching
the meta-pool.
-/

def ChainReservedInvariant (c : Chain) : Prop :=
  ChainInv ((c.alloc).2) ∧
  ChainInv ((c.create).2) ∧
  (∀ a, LiveAddr c a → ChainInv ((c.free a).2)) ∧
  (∀ a, LiveAddr c a → ChainInv ((c.destroy a).2)) ∧
  (∀ r r2, c.reserved = some r → c.reserved = some r2 → r = r2) ∧
  (∀ r, c.reserved = some r → (c.getChunk r).allocations = 0 ∧
    ∃ ch fl, c.store.getD r none = some ch ∧ ChunkWF c.poolCapacity r ch fl ∧
      fl.length = c.poolCapacity ∧ (∀ i, i < c.poolCapacity → i ∈ fl)) ∧
  (∀ a, LiveAddr c a → dec32 ((c.getChunk a.1).allocations) = 0 →
    a.1 ∉ ((c.free a).2).chain ∧ ((c.free a).2).reserved = some a.1 ∧
    (∀ r, c.reserved = some r → ((c.free a).2).store.getD r none = none)) ∧
  ((∀ s ∈ c.chain, (c.getChunk s).pool.nospace = true) → ∀ r, c.reserved = some r →
    ((c.alloc).2).meta = c.meta ∧ ((c.alloc).2).chain = c.chain ++ [r] ∧
    ((c.alloc).2).store.getD r none ≠ none)

/-!
## Claim C7: trailing metadata

The metadata record of every live allocation names exactly the chunk that
owns the cell, and the layout arithmetic of AlignmentInfo places that record
at align_up(p + payload_bytes, 8) inside the cell, the cell size being the
request plus the record plus alignment padding.
-/

def ChainMetadataSpec (c : Chain) (a : Nat × Nat) (p size : Nat) : Prop :=
  c.metaAt a = a.1 ∧
  (a.1 ∈ c.chain ∨ c.reserved = some a.1) ∧
  metaInfoAddr p size = p + metaOffset size ∧
  kAllocationSize size = metaOffset size + metaSize ∧
  size ≤ metaOffset size ∧
  metaOffset size % metaAlign = 0 ∧
  metaOffset size - size < metaAlign

/-!
## Claim C6: round trip accounting

For balanced valid traces no chunk leaks: every slot still holding a chunk is
in the active list or is the single reserved chunk.  The used_memory equality
of the claim fails: after the last release the sole remaining chunk sits in
reserved rather than active, so one active-list node pointer is saved.
-/

def ChainRoundTrip (pc ps sm ptr cm : Nat) (ops : List COp) : Prop :=
  (∀ t, ((Chain.init pc ps).run ops).store.getD t none ≠ none →
    (t ∈ ((Chain.init pc ps).run ops).chain ∨
      ((Chain.init pc ps).run ops).reserved = some t)) ∧
  (COp.alloc ∉ ops →
    ((Chain.init pc ps).run ops).used_memory sm ptr cm =
      (Chain.init pc ps).used_memory sm ptr cm) ∧
  (COp.alloc ∈ ops →
    ((Chain.init pc ps).run ops).used_memory sm ptr cm + ptr =
      (Chain.init pc ps).used_memory sm ptr cm)

/-! ## List helper lemmas -/

theorem getD_set_self {α : Type} (l : List α) (i : Nat) (v d : α) (h : i < l.length) :
    (l.set i v).getD i d = v := by
  induction l generalizing i with
  | nil => simp at h
  | cons a t ih =>
    cases i with
    | zero => simp [List.set, List.getD]
    | succ j =>
      simp only [List.set, List.length_cons] at *
      simpa [List.getD] using ih j (by omega)

theorem getD_set_ne {α : Type} (l : List α) {i j : Nat} (v d : α) (h : i ≠ j) :
    (l.set i v).getD j d = l.getD j d := by
  induction l generalizing i j with
  | nil => simp [List.set]
  | cons a t ih =>
    cases i with
    | zero =>
      cases j with
      | zero => exact absurd rfl h
      | succ k => simp [List.set, List.getD]
    | succ i2 =>
      cases j with
      | zero => simp [List.set, List.getD]
      | succ k =>
        simp only [List.set, List.getD_cons_succ]
        exact ih (fun hh => h (by omega))

theorem getD_replicate_none {α : Type} (n i : Nat) :
    (List.replicate n (none : Option α)).getD i none = none := by
  induction n generalizing i with
  | zero => simp [List.getD]
  | succ m ih =>
    cases i with
    | zero => simp [List.replicate, List.getD]
    | succ j => simp [List.replicate, List.getD]

theorem initCells_getD {n k : Nat} (h : k < n) : (initCells n).getD k 0 = k + 1 := by
  unfold initCells
  rw [List.getD_eq_getElem?_getD]
  rw [List.getElem?_map]
  rw [List.getElem?_range h]
  rfl

theorem initCells_length (n : Nat) : (initCells n).length = n := by
  simp [initCells]

/-! ## Block pool lemmas -/

theorem Pool.allocN_init (n : Nat) : ∀ k, k ≤ n → (Pool.init n).allocN k = ⟨n, initCells n, k⟩ := by
  intro k
  induction k with
  | zero => intro _; rfl
  | succ j ih =>
    intro hk
    have hj : j ≤ n := Nat.le_of_succ_le hk
    have hlt : j < n := hk
    show (((Pool.init n).allocN j).alloc).2 = _
    rw [ih hj]
    simp only [Pool.alloc]
    rw [if_neg (Nat.ne_of_lt hlt)]
    simp only [initCells_getD hlt]

theorem Pool.free_in_range (p : Pool) (id : Nat) (hid : id < p.capacity) :
    p.free (id : Int) = (true, { p with cells := p.cells.set id p.current, current := id }) := by
  unfold Pool.free
  rw [if_pos]
  · simp
  · exact ⟨Int.natCast_nonneg id, by exact_mod_cast hid⟩

theorem Pool.free_out_of_range (p : Pool) (id : Int)
    (h : ¬(0 ≤ id ∧ id < (p.capacity : Int))) : p.free id = (false, p) := by
  unfold Pool.free
  rw [if_neg h]

theorem Pool.alloc_not_full (p : Pool) (h : p.current ≠ p.capacity) :
    p.alloc = (some p.current, { p with current := p.cells.getD p.current 0 }) := by
  unfold Pool.alloc
  rw [if_neg h]

/-- C2: single-threaded block pool allocate returns the current head and
advances head along the stored link; release of a previously returned cell
writes the current head into the cell and makes the cell the new head; hence
the free list is LIFO: allocating a, b, c, releasing b, the next allocate
returns b; then releasing c and a, the next two allocations return a then c. -/
theorem C2_block_pool_lifo (p : Pool) (id : Nat)
    (hfull : p.nospace = false) (hid : id < p.capacity) : BlockPoolLifoConc p id := by
  refine ⟨?_, Pool.free_in_range p id hid, by decide⟩
  apply Pool.alloc_not_full
  simpa [Pool.nospace] using hfull

theorem C2_block_pool_lifo_witness : BlockPoolLifoConc (Pool.init 3) 1 :=
  C2_block_pool_lifo (Pool.init 3) 1 (by decide) (by decide)

/-- C3: for a block pool of capacity n bigger than 0, n allocations exhaust the
pool (head is the sentinel, full is true, the next allocate returns null);
releasing one block makes the pool non-full and the next allocate returns the
just-released address; after any release of an owned block full is false. -/
theorem C3_block_pool_exhaustion (n id : Nat) (_hn : 0 < n) (hid : id < n) :
    BlockPoolExhaustConc n id := by
  have hS : (Pool.init n).allocN n = ⟨n, initCells n, n⟩ := Pool.allocN_init n n le_rfl
  have hfree : ∀ p : Pool, ∀ j : Nat, j < p.capacity →
      ((p.free (j : Int)).2).nospace = false := by
    intro p j hj
    rw [Pool.free_in_range p j hj]
    simp [Pool.nospace, Nat.ne_of_lt hj]
  refine ⟨by rw [hS], by rw [hS]; simp [Pool.nospace], ?_, ?_, ?_, hfree⟩
  · rw [hS]
    simp [Pool.alloc]
  · exact hfree _ id (by rw [hS]; exact hid)
  · rw [hS]
    rw [Pool.free_in_range ⟨n, initCells n, n⟩ id hid]
    rw [Pool.alloc_not_full _ (Nat.ne_of_lt hid)]

theorem C3_block_pool_exhaustion_witness : BlockPoolExhaustConc 4 2 :=
  C3_block_pool_exhaustion 4 2 (by decide) (by decide)

/-- C8: free returns true exactly for pointers inside the backing range of
capacity cells, pushing the cell onto the free list; for a foreign pointer it
returns false and the state, head and every cell included, is unchanged. -/
theorem C8_block_pool_free_range (p : Pool) (id : Int) : BlockPoolFreeRangeSpec p id := by
  constructor
  · intro h
    unfold Pool.free
    rw [if_pos h]
  · exact Pool.free_out_of_range p id

theorem C8_block_pool_free_range_witness :
    BlockPoolFreeRangeSpec (Pool.init 2) 1 ∧ BlockPoolFreeRangeSpec (Pool.init 2) (-3) :=
  ⟨C8_block_pool_free_range (Pool.init 2) 1, C8_block_pool_free_range (Pool.init 2) (-3)⟩

/-- C10: the single-threaded block pool does not detect double release: for
every in-range pointer, free returns true and installs the cell as the new
head whether or not the cell is currently allocated; no result value
distinguishes a double release, as the concrete double release of cell 0
shows. -/
theorem C10_block_pool_double_free (p : Pool) (id : Nat) (hid : id < p.capacity) :
    BlockPoolDoubleFreeSpec p id := by
  refine ⟨?_, ?_, ?_, by decide⟩ <;> rw [Pool.free_in_range p id hid]

theorem C10_block_pool_double_free_witness : BlockPoolDoubleFreeSpec (Pool.init 2) 0 :=
  C10_block_pool_double_free (Pool.init 2) 0 (by decide)

/-!
## Claim C5: alignment of returned addresses

The constructor aligns only the buffer base: cell i sits at
base + i * element_size and element_size = max bytes 8 is not rounded up to a
multiple of the alignment parameter.  With bytes = 8, align = 16, capacity 2
and a 16-aligned malloc result, the second allocation returns the cell at
offset 8 from the base: inside the backing buffer, but 8 mod 16 is not 0,
contradicting the claim that every returned address is aligned.
-/

/-- C5: evaluation of the code at the failing input.  The pool hands out cell
1 on the second allocation; the base returned by the constructor arithmetic is
16-aligned and the cell lies inside the backing buffer, yet its address
8 = base + 1 * element_size is not a multiple of the alignment parameter 16. -/
theorem C5_block_pool_alignment_bug :
    (((Pool.init 2).alloc).2.alloc).1 = some 1 ∧
    alignUp 0 16 % 16 = 0 ∧
    cellAddr 0 8 16 1 = 8 ∧
    cellAddr 0 8 16 1 + elemSize 8 ≤ alignUp 0 16 + 2 * elemSize 8 ∧
    ¬ cellAddr 0 8 16 1 % 16 = 0 := by decide

/-!
## Claim C9: stack scope rewind

The claim asserts head = m0 + 100 after the scope exits.  The default variant
is top-down: alloc subtracts from head, so after allocating 100 bytes from
m0 = 1024 the head is 924 = m0 - 100, not m0 + 100.  The remaining parts of
the claim hold: free m0 restores the head to m0 and freeBytesCount is then the
whole 1024 bytes.
-/

/-- C9 counterexample: in the scenario of the claim the head after the scope
exit is 924, which is not m0 + 100 = 1124 (m0 being the initial head 1024 of
the default top-down stack region). -/
theorem C9_stack_scope_counterexample :
    (Stack.init 1024 true).head = 1024 ∧
    scopeScenarioEnd.head = 924 ∧
    ¬ scopeScenarioEnd.head = (Stack.init 1024 true).head + 100 := by decide

/-- C9 amended: in the default top-down stack region of 1024 bytes, after
taking marker m0, allocating 100 bytes, allocating 200 bytes inside a scope
and leaving the scope, the head equals m0 minus 100 (the head moves downwards
in this variant); a subsequent free at m0 restores the head to m0 and
freeBytesCount returns 1024. -/
theorem C9_stack_scope_rewind :
    scopeScenarioEnd.head = (Stack.init 1024 true).head - 100 ∧
    (scopeScenarioEnd.free (Stack.init 1024 true).head).head = (Stack.init 1024 true).head ∧
    (scopeScenarioEnd.free (Stack.init 1024 true).head).freeBytesCount = 1024 := by decide

theorem poolRep_nil {cells : List Nat} {cap cur : Nat} :
    poolRep cells cap cur [] = true ↔ cur = cap := by
  simp [poolRep]

theorem poolRep_cons {cells : List Nat} {cap cur i : Nat} {fl : List Nat} :
    poolRep cells cap cur (i :: fl) = true ↔
      cur = i ∧ i < cap ∧ poolRep cells cap (cells.getD i 0) fl = true := by
  simp [poolRep, and_assoc]

theorem poolRep_mem_lt {cells : List Nat} {cap : Nat} :
    ∀ {cur : Nat} {fl : List Nat}, poolRep cells cap cur fl = true → ∀ x ∈ fl, x < cap := by
  intro cur fl
  induction fl generalizing cur with
  | nil => intro _ x hx; simp at hx
  | cons i rest ih =>
    intro h x hx
    rw [poolRep_cons] at h
    rcases List.mem_cons.mp hx with hx2 | hx2
    · exact hx2 ▸ h.2.1
    · exact ih h.2.2 x hx2

theorem poolRep_unique {cells : List Nat} {cap : Nat} :
    ∀ {cur : Nat} {fl fl2 : List Nat},
      poolRep cells cap cur fl = true → poolRep cells cap cur fl2 = true → fl = fl2 := by
  intro cur fl
  induction fl generalizing cur with
  | nil =>
    intro fl2 h h2
    rw [poolRep_nil] at h
    cases fl2 with
    | nil => rfl
    | cons j r2 =>
      rw [poolRep_cons] at h2
      omega
  | cons i rest ih =>
    intro fl2 h h2
    rw [poolRep_cons] at h
    cases fl2 with
    | nil =>
      rw [poolRep_nil] at h2
      omega
    | cons j r2 =>
      rw [poolRep_cons] at h2
      have hij : i = j := by omega
      subst hij
      rw [ih h.2.2 h2.2.2]

theorem poolRep_set_not_mem {cells : List Nat} {cap i v : Nat} :
    ∀ {cur : Nat} {fl : List Nat}, i ∉ fl →
      poolRep (cells.set i v) cap cur fl = poolRep cells cap cur fl := by
  intro cur fl
  induction fl generalizing cur with
  | nil => intro _; simp [poolRep]
  | cons j rest ih =>
    intro h
    have hj : i ≠ j := fun hh => h (hh ▸ List.mem_cons_self j rest)
    have hrest : i ∉ rest := fun hh => h (List.mem_cons_of_mem j hh)
    simp only [poolRep, getD_set_ne cells v 0 hj, ih hrest]

theorem poolRep_range' {n : Nat} : ∀ m k, k + m = n →
    poolRep (initCells n) n k (List.range' k m) = true := by
  intro m
  induction m with
  | zero =>
    intro k hk
    simp [List.range', poolRep]
    omega
  | succ j ih =>
    intro k hk
    have hkn : k < n := by omega
    show poolRep (initCells n) n k (k :: List.range' (k + 1) j) = true
    rw [poolRep_cons]
    exact ⟨rfl, hkn, by rw [initCells_getD hkn]; exact ih (k + 1) (by omega)⟩

theorem poolRep_init (n : Nat) : poolRep (initCells n) n 0 (List.range n) = true := by
  rw [List.range_eq_range']
  exact poolRep_range' n 0 (by omega)

theorem nodup_length_le {l : List Nat} {n : Nat} (hd : l.Nodup) (hb : ∀ x ∈ l, x < n) :
    l.length ≤ n := by
  have hsub : l ⊆ List.range n := fun x hx => List.mem_range.mpr (hb x hx)
  have := (hd.subperm hsub).length_le
  simpa using this

theorem nodup_full_mem {l : List Nat} {n : Nat} (hd : l.Nodup) (hb : ∀ x ∈ l, x < n)
    (hl : l.length = n) : ∀ x, x < n → x ∈ l := by
  intro x hx
  have hsub : l ⊆ List.range n := fun y hy => List.mem_range.mpr (hb y hy)
  have hsp := hd.subperm hsub
  have hperm := hsp.perm_of_length_le (by simpa using Nat.le_of_eq hl.symm)
  exact hperm.mem_iff.mpr (List.mem_range.mpr hx)

theorem ChunkWF_fresh (pc s : Nat) : ChunkWF pc s (freshChunk pc) (List.range pc) := by
  refine ⟨poolRep_init pc, List.nodup_range pc, rfl, initCells_length pc, by simp [freshChunk], by simp, by simp [freshChunk], ?_⟩
  intro i hi hni
  exact absurd (List.mem_range.mpr hi) hni

theorem ChunkWF_nospace {pc s : Nat} {ch : Chunk} {fl : List Nat} (h : ChunkWF pc s ch fl) :
    ch.pool.nospace = true ↔ fl = [] := by
  obtain ⟨hrep, -, hcap, -⟩ := h
  cases fl with
  | nil =>
    rw [poolRep_nil] at hrep
    simp [Pool.nospace, hrep, hcap]
  | cons i rest =>
    rw [poolRep_cons] at hrep
    constructor
    · intro hs
      simp [Pool.nospace, hcap] at hs
      omega
    · intro hh; cases hh

theorem ChunkWF_alloc {pc s : Nat} {ch : Chunk} {i : Nat} {fl : List Nat}
    (hpc : pc < u32Mod) (h : ChunkWF pc s ch (i :: fl)) :
    ch.pool.alloc = (some i, { ch.pool with current := ch.pool.cells.getD i 0 }) ∧
    ch.pool.current = i ∧
    ChunkWF pc s ⟨{ ch.pool with current := ch.pool.cells.getD i 0 },
      inc32 ch.allocations, ch.metaArr.set i s⟩ fl := by
  obtain ⟨hrep, hnd, hcap, hlen, hmlen, hflen, hcnt, hmeta⟩ := h
  rw [poolRep_cons] at hrep
  obtain ⟨hcur, hilt, hrest⟩ := hrep
  have halloc : ch.pool.alloc = (some i, { ch.pool with current := ch.pool.cells.getD i 0 }) := by
    unfold Pool.alloc
    rw [if_neg (by omega : ¬ ch.pool.current = ch.pool.capacity)]
    rw [hcur]
  have hlen2 : fl.length + 1 ≤ pc := by simpa using hflen
  have hcnt2 : inc32 ch.allocations = pc - fl.length := by
    unfold inc32
    rw [hcnt]
    have : pc - (i :: fl).length + 1 = pc - fl.length := by simp; omega
    rw [this]
    exact Nat.mod_eq_of_lt (by omega)
  refine ⟨halloc, hcur, hrest, hnd.of_cons, hcap, by simpa using hlen, by simpa using hmlen, by omega, hcnt2, ?_⟩
  intro j hj hnj
  by_cases hji : j = i
  · subst hji
    exact getD_set_self ch.metaArr j s 0 (by omega)
  · rw [getD_set_ne ch.metaArr s 0 (fun hh => hji hh.symm)]
    exact hmeta j hj (by simp [hji, hnj])

theorem ChunkWF_free {pc s : Nat} {ch : Chunk} {i : Nat} {fl : List Nat}
    (hpc : pc < u32Mod) (h : ChunkWF pc s ch fl) (hi : i < pc) (hni : i ∉ fl) :
    ch.pool.free (i : Int) =
      (true, { ch.pool with cells := ch.pool.cells.set i ch.pool.current, current := i }) ∧
    1 ≤ ch.allocations ∧
    dec32 ch.allocations = ch.allocations - 1 ∧
    ChunkWF pc s ⟨{ ch.pool with cells := ch.pool.cells.set i ch.pool.current, current := i },
      dec32 ch.allocations, ch.metaArr⟩ (i :: fl) := by
  obtain ⟨hrep, hnd, hcap, hlen, hmlen, hflen, hcnt, hmeta⟩ := h
  have hfree := Pool.free_in_range ch.pool i (by omega)
  have hflt : fl.length < pc := by
    have hnd2 : (i :: fl).Nodup := List.nodup_cons.mpr ⟨hni, hnd⟩
    have hb : ∀ x ∈ i :: fl, x < pc := by
      intro x hx
      rcases List.mem_cons.mp hx with hx2 | hx2
      · omega
      · exact poolRep_mem_lt hrep x hx2
    have := nodup_length_le hnd2 hb
    simp at this
    omega
  have hcpos : 1 ≤ ch.allocations := by omega
  have hdec : dec32 ch.allocations = ch.allocations - 1 := by
    unfold dec32
    have h1 : ch.allocations + (u32Mod - 1) = (ch.allocations - 1) + u32Mod := by omega
    rw [h1, Nat.add_mod_right]
    exact Nat.mod_eq_of_lt (by unfold u32Mod at *; omega)
  refine ⟨hfree, hcpos, hdec, ?_, List.nodup_cons.mpr ⟨hni, hnd⟩, hcap, by simpa using hlen,
    hmlen, by simpa using hflt, by simp [hdec]; omega, ?_⟩
  · rw [poolRep_cons]
    refine ⟨rfl, hi, ?_⟩
    rw [getD_set_self ch.pool.cells i ch.pool.current 0 (by omega)]
    rw [poolRep_set_not_mem hni]
    exact hrep
  · intro j hj hnj
    exact hmeta j hj (fun hh => hnj (List.mem_cons_of_mem i hh))

/-! ## Chain helper lemmas -/

theorem getChunk_of_store {c : Chain} {s : Nat} {ch : Chunk}
    (h : c.store.getD s none = some ch) : c.getChunk s = ch := by
  unfold Chain.getChunk
  rw [h]
  rfl

theorem setChunk_getD_self {c : Chain} {s : Nat} (ch : Chunk) (hs : s < c.store.length) :
    ((c.setChunk s ch).store.getD s none) = some ch :=
  getD_set_self c.store s (some ch) none hs

theorem setChunk_getD_ne {c : Chain} {s t : Nat} (ch : Chunk) (h : s ≠ t) :
    ((c.setChunk s ch).store.getD t none) = c.store.getD t none :=
  getD_set_ne c.store (some ch) none h

theorem find?_split {α : Type} {p : α → Bool} {l : List α} {a : α} (h : l.find? p = some a) :
    ∃ l1 l2, l = l1 ++ a :: l2 ∧ (∀ x ∈ l1, p x = false) ∧ p a = true := by
  induction l with
  | nil => cases h
  | cons b t ih =>
    by_cases hb : p b
    · refine ⟨[], t, ?_, by simp, ?_⟩
      · simp only [List.find?, hb] at h
        cases h
        rfl
      · simp only [List.find?, hb] at h
        cases h
        exact hb
    · have hb2 : p b = false := by simpa using hb
      simp only [List.find?, hb2] at h
      obtain ⟨l1, l2, heq, hall, hpa⟩ := ih h
      refine ⟨b :: l1, l2, by rw [heq]; simp, ?_, hpa⟩
      intro x hx
      rcases List.mem_cons.mp hx with hx2 | hx2
      · exact hx2 ▸ hb2
      · exact hall x hx2

theorem nodup_append_singleton {l : List Nat} {a : Nat} (hd : l.Nodup) (ha : a ∉ l) :
    (l ++ [a]).Nodup := by
  induction l with
  | nil => simp
  | cons b t ih =>
    have hbt : b ∉ t := (List.nodup_cons.mp hd).1
    have hat : a ∉ t := fun hh => ha (List.mem_cons_of_mem b hh)
    have hab : b ≠ a := fun hh => ha (hh ▸ List.mem_cons_self b t)
    refine List.nodup_cons.mpr ⟨?_, ih (List.nodup_cons.mp hd).2 hat⟩
    intro hh
    rcases List.mem_append.mp hh with hh2 | hh2
    · exact hbt hh2
    · simp at hh2
      exact hab hh2

/-! ## Preservation of the chained pool invariant by alloc -/

theorem getChunk_setChunk_self (c : Chain) (s : Nat) (ch : Chunk) (hs : s < c.store.length) :
    (c.setChunk s ch).getChunk s = ch :=
  getChunk_of_store (setChunk_getD_self ch hs)

theorem getChunk_setChunk_ne (c : Chain) {s t : Nat} (ch : Chunk) (h : s ≠ t) :
    (c.setChunk s ch).getChunk t = c.getChunk t := by
  unfold Chain.getChunk
  rw [setChunk_getD_ne ch h]

theorem chain_alloc_hit (c : Chain) (h : ChainInv c) {s : Nat}
    (hf : c.chain.find? (fun t => !(c.getChunk t).pool.nospace) = some s) :
    (c.alloc).1 = some (s, (c.getChunk s).pool.current) ∧
    (c.alloc).2.chain = c.chain ∧
    (c.alloc).2.reserved = c.reserved ∧
    (c.alloc).2.meta = c.meta ∧
    ChainInv (c.alloc).2 ∧
    (c.alloc).2.allLivePos := by
  have hs_mem : s ∈ c.chain := List.mem_of_find?_eq_some hf
  have hlive : c.liveSlot s := Or.inl hs_mem
  obtain ⟨ch, fl, hst, hwf⟩ := h.chunkWF s hlive
  have hgc : c.getChunk s = ch := getChunk_of_store hst
  have hpred := List.find?_some hf
  have hns : ch.pool.nospace = false := by
    rw [← hgc]
    simpa using hpred
  cases fl with
  | nil =>
    rw [(ChunkWF_nospace hwf).mpr rfl] at hns
    cases hns
  | cons i fl2 =>
  obtain ⟨halloc, hcur, hwf2⟩ := ChunkWF_alloc h.pcLt hwf
  have hs_lt : s < c.store.length := by
    rw [h.storeLen]
    exact h.chainLt s hs_mem
  set newCh : Chunk := ⟨{ ch.pool with current := ch.pool.cells.getD i 0 },
    inc32 ch.allocations, ch.metaArr.set i s⟩ with hnew
  have heq : c.alloc = (some (s, i), c.setChunk s newCh) := by
    unfold Chain.alloc
    rw [hf]
    show c.allocInto s = (some (s, i), c.setChunk s newCh)
    simp only [Chain.allocInto]
    rw [hgc, halloc]
  have hcnt_pos : 1 ≤ newCh.allocations := by
    obtain ⟨-, -, -, -, -, hflen, hcnt, -⟩ := hwf2
    obtain ⟨-, -, -, -, -, hflen0, -, -⟩ := hwf
    simp only [hnew] at hcnt ⊢
    simp at hflen0
    omega
  have hP : ∀ t ∈ c.chain, 1 ≤ ((c.setChunk s newCh).getChunk t).allocations := by
    intro t ht2
    by_cases hts : t = s
    · subst hts
      rw [getChunk_setChunk_self c t newCh hs_lt]
      exact hcnt_pos
    · rw [getChunk_setChunk_ne c newCh (fun hh => hts hh.symm)]
      rcases h.countPos with hcp | ⟨s0, hchain, hcnt0, -⟩
      · exact hcp t ht2
      · rw [hchain] at ht2 hs_mem
        simp at ht2 hs_mem
        exact absurd (ht2.trans hs_mem.symm) hts
  rw [heq]
  refine ⟨by rw [hgc, hcur], rfl, rfl, rfl, ?_, hP⟩
  constructor
  case pcPos => exact h.pcPos
  case pcLt => exact h.pcLt
  case storeLen => simpa [Chain.setChunk] using h.storeLen
  case metaLen => exact h.metaLen
  case chainNodup => exact h.chainNodup
  case chainLt => exact h.chainLt
  case resOk => exact h.resOk
  case metaRep => exact h.metaRep
  case chunkWF =>
    intro t ht
    by_cases hts : t = s
    · subst hts
      exact ⟨newCh, fl2, setChunk_getD_self newCh hs_lt, hwf2⟩
    · obtain ⟨ch2, fl3, hst2, hwf3⟩ := h.chunkWF t ht
      exact ⟨ch2, fl3, by rw [setChunk_getD_ne newCh (fun hh => hts hh.symm)]; exact hst2, hwf3⟩
  case resEmpty =>
    intro r hr
    have hrs : r ≠ s := fun hh => (h.resOk r hr).2 (hh ▸ hs_mem)
    obtain ⟨ch2, fl3, hst2, hwf3, hlen3⟩ := h.resEmpty r hr
    exact ⟨ch2, fl3, by rw [setChunk_getD_ne newCh (fun hh => hrs hh.symm)]; exact hst2, hwf3, hlen3⟩
  case storeNone =>
    intro t ht
    have hts : t ≠ s := fun hh => ht (hh ▸ hlive)
    rw [setChunk_getD_ne newCh (fun hh => hts hh.symm)]
    exact h.storeNone t ht
  case countPos => exact Or.inl hP
  case chainNE => exact h.chainNE

theorem chain_alloc_promote (c : Chain) (h : ChainInv c) {r : Nat}
    (hf : c.chain.find? (fun t => !(c.getChunk t).pool.nospace) = none)
    (hr : c.reserved = some r) :
    (c.alloc).1 = some (r, (c.getChunk r).pool.current) ∧
    (c.alloc).2.chain = c.chain ++ [r] ∧
    (c.alloc).2.reserved = none ∧
    (c.alloc).2.meta = c.meta ∧
    (c.alloc).2.store.getD r none ≠ none ∧
    ChainInv (c.alloc).2 ∧
    (c.alloc).2.allLivePos := by
  have hfullAll : ∀ t ∈ c.chain, (c.getChunk t).pool.nospace = true := by
    intro t ht
    have := List.find?_eq_none.mp hf t ht
    simpa using this
  obtain ⟨ch, fl, hst, hwf, hflen⟩ := h.resEmpty r hr
  have hgc : c.getChunk r = ch := getChunk_of_store hst
  have hrlt : r < c.meta.capacity := (h.resOk r hr).1
  have hrnc : r ∉ c.chain := (h.resOk r hr).2
  cases fl with
  | nil =>
    exfalso
    have := h.pcPos
    simp at hflen
    omega
  | cons i fl2 =>
  obtain ⟨halloc, hcur, hwf2⟩ := ChunkWF_alloc h.pcLt hwf
  set c1 : Chain := { c with chain := c.chain ++ [r], reserved := none } with hc1
  have hgc1 : c1.getChunk r = ch := getChunk_of_store (c := c1) hst
  have hr_lt : r < c1.store.length := by
    rw [show c1.store = c.store from rfl, h.storeLen]
    exact hrlt
  set newCh : Chunk := ⟨{ ch.pool with current := ch.pool.cells.getD i 0 },
    inc32 ch.allocations, ch.metaArr.set i r⟩ with hnew
  have heq0 : c.alloc = c1.allocInto r := by
    unfold Chain.alloc
    rw [hf, hr]
  have heq : c.alloc = (some (r, i), c1.setChunk r newCh) := by
    rw [heq0]
    simp only [Chain.allocInto]
    rw [hgc1, halloc]
  have hlive_iff : ∀ t, (c1.setChunk r newCh).liveSlot t ↔ c.liveSlot t := by
    intro t
    unfold Chain.liveSlot
    rw [hr]
    show t ∈ c.chain ++ [r] ∨ none = some t ↔ t ∈ c.chain ∨ some r = some t
    simp [List.mem_append, eq_comm]
  have hcnt_new : newCh.allocations = 1 := by
    obtain ⟨-, -, -, -, -, hflen2, hcnt2, -⟩ := hwf2
    simp at hflen
    simp only [hnew] at hcnt2 ⊢
    omega
  have hP : ∀ t ∈ c.chain ++ [r], 1 ≤ ((c1.setChunk r newCh).getChunk t).allocations := by
    intro t ht2
    rcases List.mem_append.mp ht2 with ht3 | ht3
    · have htr : t ≠ r := fun hh => hrnc (hh ▸ ht3)
      rw [getChunk_setChunk_ne c1 newCh (fun hh => htr hh.symm)]
      have hfull := hfullAll t ht3
      obtain ⟨ch2, fl3, hst2, hwf3⟩ := h.chunkWF t (Or.inl ht3)
      have hgc2 : c1.getChunk t = ch2 := getChunk_of_store (c := c1) hst2
      rw [hgc2]
      have hfl3 : fl3 = [] := by
        rw [← ChunkWF_nospace hwf3]
        rw [← getChunk_of_store hst2]
        exact hfull
      obtain ⟨-, -, -, -, -, -, hcnt3, -⟩ := hwf3
      rw [hcnt3, hfl3]
      simp
      exact h.pcPos
    · simp at ht3
      subst ht3
      rw [getChunk_setChunk_self c1 t newCh hr_lt, hcnt_new]
  rw [heq]
  refine ⟨by rw [hgc, hcur], rfl, rfl, rfl, by rw [setChunk_getD_self newCh hr_lt]; simp, ?_, hP⟩
  constructor
  case pcPos => exact h.pcPos
  case pcLt => exact h.pcLt
  case storeLen => simpa [Chain.setChunk] using h.storeLen
  case metaLen => exact h.metaLen
  case chainNodup => exact nodup_append_singleton h.chainNodup hrnc
  case chainLt =>
    intro t ht
    rcases List.mem_append.mp ht with ht2 | ht2
    · exact h.chainLt t ht2
    · simp at ht2
      exact ht2 ▸ hrlt
  case resOk =>
    intro r2 hr2
    cases hr2
  case metaRep =>
    obtain ⟨mfl, hrep, hnd, hiff⟩ := h.metaRep
    refine ⟨mfl, hrep, hnd, ?_⟩
    intro t ht
    rw [hlive_iff t]
    exact hiff t ht
  case chunkWF =>
    intro t ht
    by_cases htr : t = r
    · subst htr
      exact ⟨newCh, fl2, setChunk_getD_self newCh hr_lt, hwf2⟩
    · have ht2 : c.liveSlot t := (hlive_iff t).mp ht
      obtain ⟨ch2, fl3, hst2, hwf3⟩ := h.chunkWF t ht2
      exact ⟨ch2, fl3, by rw [setChunk_getD_ne newCh (fun hh => htr hh.symm)]; exact hst2, hwf3⟩
  case resEmpty =>
    intro r2 hr2
    cases hr2
  case storeNone =>
    intro t ht
    have htr : t ≠ r := by
      intro hh
      subst hh
      exact ht ((hlive_iff t).mpr (Or.inr hr))
    rw [setChunk_getD_ne newCh (fun hh => htr hh.symm)]
    exact h.storeNone t (fun hh => ht ((hlive_iff t).mpr hh))
  case countPos => exact Or.inl hP
  case chainNE =>
    left
    show c.chain ++ [r] ≠ []
    simp

theorem chain_alloc_fresh (c : Chain) (h : ChainInv c)
    (hf : c.chain.find? (fun t => !(c.getChunk t).pool.nospace) = none)
    (hr : c.reserved = none) (hm : c.meta.nospace = false) :
    (c.alloc).1 = some (c.meta.current, 0) ∧
    (c.alloc).2.chain = c.chain ++ [c.meta.current] ∧
    (c.alloc).2.reserved = none ∧
    ¬ c.liveSlot c.meta.current ∧
    ChainInv (c.alloc).2 ∧
    (c.alloc).2.allLivePos := by
  have hfullAll : ∀ t ∈ c.chain, (c.getChunk t).pool.nospace = true := by
    intro t ht
    have := List.find?_eq_none.mp hf t ht
    simpa using this
  obtain ⟨mfl, hrepm, hndm, hiffm⟩ := h.metaRep
  have hcurne : c.meta.current ≠ c.meta.capacity := by
    intro hh
    simp [Pool.nospace, hh] at hm
  cases mfl with
  | nil =>
    rw [poolRep_nil] at hrepm
    exact absurd hrepm hcurne
  | cons s0 rest =>
  rw [poolRep_cons] at hrepm
  obtain ⟨hcur_eq, hs0lt, hrest⟩ := hrepm
  set s : Nat := c.meta.current with hs
  have hs0s : s0 = s := hcur_eq.symm
  subst hs0s
  have hnotlive : ¬ c.liveSlot s := by
    have hnd2 := List.nodup_cons.mp hndm
    exact (hiffm s hs0lt).mp (List.mem_cons_self s rest)
  have hsnotchain : s ∉ c.chain := fun hh => hnotlive (Or.inl hh)
  have hsrest : s ∉ rest := (List.nodup_cons.mp hndm).1
  have hndrest : rest.Nodup := (List.nodup_cons.mp hndm).2
  obtain ⟨k, hpck⟩ : ∃ k, c.poolCapacity = k + 1 := ⟨c.poolCapacity - 1, by have := h.pcPos; omega⟩
  have hrange : List.range c.poolCapacity = 0 :: List.range' 1 k := by
    rw [hpck, List.range_eq_range']
    rfl
  have hwfF : ChunkWF c.poolCapacity s (freshChunk c.poolCapacity) (0 :: List.range' 1 k) := by
    rw [← hrange]
    exact ChunkWF_fresh c.poolCapacity s
  obtain ⟨hallocF, hcurF, hwf2⟩ := ChunkWF_alloc h.pcLt hwfF
  set m2 : Pool := { c.meta with current := c.meta.cells.getD s 0 } with hm2
  have hma : c.meta.alloc = (some s, m2) := by
    unfold Pool.alloc
    rw [if_neg hcurne]
  set c1 : Chain := { c with meta := m2, store := c.store.set s (some (freshChunk c.poolCapacity)), chain := c.chain ++ [s], reserved := none } with hc1
  have hs_storelt : s < c.store.length := by
    rw [h.storeLen]
    exact hs0lt
  have hgc1 : c1.getChunk s = freshChunk c.poolCapacity :=
    getChunk_of_store (c := c1) (getD_set_self c.store s (some (freshChunk c.poolCapacity)) none hs_storelt)
  set newCh : Chunk := ⟨{ (freshChunk c.poolCapacity).pool with
      current := (freshChunk c.poolCapacity).pool.cells.getD 0 0 },
    inc32 (freshChunk c.poolCapacity).allocations,
    (freshChunk c.poolCapacity).metaArr.set 0 s⟩ with hnew
  have heq0 : c.alloc = c1.allocInto s := by
    unfold Chain.alloc
    rw [hf, hr, hm]
    show (if (false : Bool) then ((none : Option (Nat × Nat)), c) else _) = _
    rw [if_neg (by simp)]
    rw [hma]
  have heq : c.alloc = (some (s, 0), c1.setChunk s newCh) := by
    rw [heq0]
    simp only [Chain.allocInto]
    rw [hgc1, hallocF]
  have hs1_storelt : s < c1.store.length := by
    show s < (c.store.set s (some (freshChunk c.poolCapacity))).length
    rw [List.length_set]
    exact hs_storelt
  have hstore2_self : (c1.setChunk s newCh).store.getD s none = some newCh :=
    setChunk_getD_self newCh hs1_storelt
  have hstore2_ne : ∀ t, t ≠ s → (c1.setChunk s newCh).store.getD t none = c.store.getD t none := by
    intro t ht
    rw [setChunk_getD_ne newCh (fun hh => ht hh.symm)]
    show (c.store.set s (some (freshChunk c.poolCapacity))).getD t none = _
    rw [getD_set_ne c.store (some (freshChunk c.poolCapacity)) none (fun hh => ht hh.symm)]
  have hlive2 : ∀ t, (c1.setChunk s newCh).liveSlot t ↔ (t ∈ c.chain ∨ t = s) := by
    intro t
    unfold Chain.liveSlot
    show t ∈ c.chain ++ [s] ∨ none = some t ↔ _
    simp [List.mem_append]
  have hcnt_new : newCh.allocations = 1 := by
    obtain ⟨-, -, -, -, -, -, hcnt2, -⟩ := hwf2
    rw [hcnt2, hpck]
    simp [List.length_range']
  have hP : ∀ t ∈ c.chain ++ [s], 1 ≤ ((c1.setChunk s newCh).getChunk t).allocations := by
    intro t ht2
    rcases List.mem_append.mp ht2 with ht3 | ht3
    · have hts : t ≠ s := fun hh => hsnotchain (hh ▸ ht3)
      have hgc2 : (c1.setChunk s newCh).getChunk t = c.getChunk t := by
        unfold Chain.getChunk
        rw [hstore2_ne t hts]
      rw [hgc2]
      have hfull := hfullAll t ht3
      obtain ⟨ch2, fl3, hst2, hwf3⟩ := h.chunkWF t (Or.inl ht3)
      rw [getChunk_of_store hst2]
      have hfl3 : fl3 = [] := by
        rw [← ChunkWF_nospace hwf3, ← getChunk_of_store hst2]
        exact hfull
      obtain ⟨-, -, -, -, -, -, hcnt3, -⟩ := hwf3
      rw [hcnt3, hfl3]
      simp
      exact h.pcPos
    · simp at ht3
      subst ht3
      rw [getChunk_of_store hstore2_self, hcnt_new]
  rw [heq]
  refine ⟨rfl, rfl, rfl, hnotlive, ?_, hP⟩
  constructor
  case pcPos => exact h.pcPos
  case pcLt => exact h.pcLt
  case storeLen =>
    show ((c.store.set s (some (freshChunk c.poolCapacity))).set s (some newCh)).length = _
    rw [List.length_set, List.length_set]
    exact h.storeLen
  case metaLen => exact h.metaLen
  case chainNodup => exact nodup_append_singleton h.chainNodup hsnotchain
  case chainLt =>
    intro t ht
    rcases List.mem_append.mp ht with ht2 | ht2
    · exact h.chainLt t ht2
    · simp at ht2
      exact ht2 ▸ hs0lt
  case resOk =>
    intro r2 hr2
    cases hr2
  case metaRep =>
    refine ⟨rest, hrest, hndrest, ?_⟩
    intro t ht
    rw [hlive2 t]
    by_cases hts : t = s
    · subst hts
      simp [hsrest]
    · constructor
      · intro htr hcontra
        rcases hcontra with hc2 | hc2
        · exact (hiffm t ht).mp (List.mem_cons_of_mem s htr) (Or.inl hc2)
        · exact hts hc2
      · intro hnl
        have : t ∈ s :: rest := by
          refine (hiffm t ht).mpr ?_
          intro hlive
          rcases hlive with hc2 | hc2
          · exact hnl (Or.inl hc2)
          · rw [hr] at hc2
            cases hc2
        rcases List.mem_cons.mp this with hc2 | hc2
        · exact absurd hc2 hts
        · exact hc2
  case chunkWF =>
    intro t ht
    by_cases hts : t = s
    · subst hts
      exact ⟨newCh, List.range' 1 k, hstore2_self, hwf2⟩
    · have ht2 : c.liveSlot t := by
        rcases (hlive2 t).mp ht with hc2 | hc2
        · exact Or.inl hc2
        · exact absurd hc2 hts
      obtain ⟨ch2, fl3, hst2, hwf3⟩ := h.chunkWF t ht2
      exact ⟨ch2, fl3, by rw [hstore2_ne t hts]; exact hst2, hwf3⟩
  case resEmpty =>
    intro r2 hr2
    cases hr2
  case storeNone =>
    intro t ht
    have hts : t ≠ s := fun hh => ht ((hlive2 t).mpr (Or.inr hh))
    rw [hstore2_ne t hts]
    refine h.storeNone t ?_
    intro hlive
    rcases hlive with hc2 | hc2
    · exact ht ((hlive2 t).mpr (Or.inl hc2))
    · rw [hr] at hc2
      cases hc2
  case countPos => exact Or.inl hP
  case chainNE =>
    left
    show c.chain ++ [s] ≠ []
    simp

/-- Exhausted chained pool: nothing in the active list has room, the reserved
slot is empty and the meta-pool is full; alloc returns null and changes
nothing. -/
theorem chain_alloc_fail (c : Chain)
    (hf : c.chain.find? (fun t => !(c.getChunk t).pool.nospace) = none)
    (hr : c.reserved = none) (hm : c.meta.nospace = true) :
    c.alloc = (none, c) := by
  unfold Chain.alloc
  rw [hf, hr, hm]
  rfl

/-! ## Preservation of the chained pool invariant by free -/

theorem chain_free_spec (c : Chain) (h : ChainInv c) {s i : Nat} (ha : LiveAddr c (s, i)) :
    c.metaAt (s, i) = s ∧
    (c.free (s, i)).1 = true ∧
    s ∈ c.chain ∧
    (dec32 ((c.getChunk s).allocations) ≠ 0 →
      (c.free (s, i)).2.chain = c.chain ∧ (c.free (s, i)).2.reserved = c.reserved ∧
      (c.free (s, i)).2.meta = c.meta) ∧
    (dec32 ((c.getChunk s).allocations) = 0 →
      s ∉ (c.free (s, i)).2.chain ∧ (c.free (s, i)).2.reserved = some s ∧
      (∀ r, c.reserved = some r → (c.free (s, i)).2.store.getD r none = none)) ∧
    ChainInv (c.free (s, i)).2 ∧
    (c.free (s, i)).2.allLivePos := by
  obtain ⟨hlive0, hilt0, ch, fl, hst0, hwf0, hnifl0⟩ := ha
  have hlive : c.liveSlot s := hlive0
  have hilt : i < c.poolCapacity := hilt0
  have hst : c.store.getD s none = some ch := hst0
  have hwf : ChunkWF c.poolCapacity s ch fl := hwf0
  have hnifl : i ∉ fl := hnifl0
  clear hlive0 hilt0 hst0 hwf0 hnifl0
  have hrep := hwf.1
  have hnd := hwf.2.1
  have hmetaF := hwf.2.2.2.2.2.2.2
  have hs_chain : s ∈ c.chain := by
    rcases hlive with hc | hc
    · exact hc
    · exfalso
      obtain ⟨ch2, fl2, hst2, hwf2b, hlen2⟩ := h.resEmpty s hc
      rw [hst] at hst2
      have hch : ch2 = ch := (Option.some_inj.mp hst2).symm
      subst hch
      have hfl_eq : fl2 = fl := poolRep_unique hwf2b.1 hrep
      have hmemfl := nodup_full_mem hnd (poolRep_mem_lt hrep) (hfl_eq ▸ hlen2)
      exact hnifl (hmemfl i hilt)
  have hgc : c.getChunk s = ch := getChunk_of_store hst
  have hmetaAt : c.metaAt (s, i) = s := by
    unfold Chain.metaAt
    rw [hst]
    simp only [Option.getD_some]
    exact hmetaF i hilt hnifl
  obtain ⟨hfr, hcpos, hdec, hwfF⟩ := ChunkWF_free h.pcLt hwf hilt hnifl
  set fC : Chunk := ⟨{ ch.pool with cells := ch.pool.cells.set i ch.pool.current, current := i },
    dec32 ch.allocations, ch.metaArr⟩ with hfCdef
  have heq : c.free (s, i) =
      (true, if dec32 ch.allocations = 0
        then (c.setChunk s fC).setReservedPool s else c.setChunk s fC) := by
    simp only [Chain.free, hmetaAt, hgc]
    rw [if_pos trivial, hfr]
  have hslt_cap : s < c.meta.capacity := h.chainLt s hs_chain
  have hs_len : s < c.store.length := by rw [h.storeLen]; exact hslt_cap
  set cA : Chain := c.setChunk s fC with hcA
  have hgcA_self : cA.getChunk s = fC := getChunk_setChunk_self c s fC hs_len
  have hstA_self : cA.store.getD s none = some fC := setChunk_getD_self fC hs_len
  have hstA_ne : ∀ t, t ≠ s → cA.store.getD t none = c.store.getD t none :=
    fun t ht => setChunk_getD_ne fC (fun hh => ht hh.symm)
  have hcnt_eq : (c.getChunk s).allocations = ch.allocations := by rw [hgc]
  rw [heq, hcnt_eq]
  by_cases hne : dec32 ch.allocations = 0
  case neg =>
    rw [if_neg hne]
    have hP : ∀ t ∈ c.chain, 1 ≤ (cA.getChunk t).allocations := by
      intro t ht2
      by_cases hts : t = s
      · subst hts
        rw [hgcA_self]
        show 1 ≤ dec32 ch.allocations
        omega
      · rw [getChunk_setChunk_ne c fC (fun hh => hts hh.symm)]
        rcases h.countPos with hcp | ⟨s0, hchain, hcnt0, -⟩
        · exact hcp t ht2
        · rw [hchain] at ht2 hs_chain
          simp at ht2 hs_chain
          exact absurd (ht2.trans hs_chain.symm) hts
    refine ⟨hmetaAt, rfl, hs_chain, fun _ => ⟨rfl, rfl, rfl⟩, fun hz => absurd hz hne, ?_, hP⟩
    constructor
    case pcPos => exact h.pcPos
    case pcLt => exact h.pcLt
    case storeLen =>
      show (c.store.set s (some fC)).length = c.meta.capacity
      rw [List.length_set]
      exact h.storeLen
    case metaLen => exact h.metaLen
    case chainNodup => exact h.chainNodup
    case chainLt => exact h.chainLt
    case resOk => exact h.resOk
    case metaRep => exact h.metaRep
    case chunkWF =>
      intro t ht
      by_cases hts : t = s
      · subst hts
        exact ⟨fC, i :: fl, hstA_self, hwfF⟩
      · obtain ⟨ch2, fl3, hst2, hwf3⟩ := h.chunkWF t ht
        exact ⟨ch2, fl3, by rw [hstA_ne t hts]; exact hst2, hwf3⟩
    case resEmpty =>
      intro r hr
      have hrs : r ≠ s := fun hh => (h.resOk r hr).2 (hh ▸ hs_chain)
      obtain ⟨ch2, fl3, hst2, hwf3, hlen3⟩ := h.resEmpty r hr
      exact ⟨ch2, fl3, by rw [hstA_ne r hrs]; exact hst2, hwf3, hlen3⟩
    case storeNone =>
      intro t ht
      have hts : t ≠ s := fun hh => ht (hh ▸ Or.inl hs_chain)
      rw [hstA_ne t hts]
      exact h.storeNone t ht
    case countPos => exact Or.inl hP
    case chainNE => exact h.chainNE
  case pos =>
    rw [if_pos hne]
    have hfllen : (i :: fl).length = c.poolCapacity := by
      have hcnt := hwf.2.2.2.2.2.2.1
      have hflen := hwf.2.2.2.2.2.1
      simp only [List.length_cons]
      omega
    have hfCwf : ChunkWF c.poolCapacity s fC (i :: fl) := hwfF
    have hmem_filter : ∀ t, t ∈ c.chain.filter (fun x => x != s) ↔ (t ∈ c.chain ∧ t ≠ s) := by
      intro t
      rw [List.mem_filter]
      simp
    rcases hres : c.reserved with _ | r
    -- no previously reserved chunk
    case none =>
      have hsrp : cA.setReservedPool s =
          { cA with chain := cA.chain.filter (fun x => x != s), reserved := some s } := by
        unfold Chain.setReservedPool
        rw [show cA.reserved = none from hres]
      rw [hsrp]
      have hlive2 : ∀ t, ({ cA with chain := cA.chain.filter (fun x => x != s), reserved := some s } : Chain).liveSlot t ↔ t ∈ c.chain := by
        intro t
        unfold Chain.liveSlot
        show t ∈ c.chain.filter (fun x => x != s) ∨ some s = some t ↔ _
        rw [hmem_filter t]
        constructor
        · intro hc2
          rcases hc2 with hc2 | hc2
          · exact hc2.1
          · exact (Option.some_inj.mp hc2) ▸ hs_chain
        · intro hc2
          by_cases hts : t = s
          · exact Or.inr (by rw [hts])
          · exact Or.inl ⟨hc2, hts⟩
      have hP : ∀ t ∈ cA.chain.filter (fun x => x != s),
          1 ≤ (({ cA with chain := cA.chain.filter (fun x => x != s), reserved := some s } : Chain).getChunk t).allocations := by
        intro t ht
        have ht2 := (hmem_filter t).mp ht
        have hgq : ({ cA with chain := cA.chain.filter (fun x => x != s), reserved := some s } : Chain).getChunk t = c.getChunk t := by
          unfold Chain.getChunk
          show (cA.store.getD t none).getD defaultChunk = _
          rw [hstA_ne t ht2.2]
        rw [hgq]
        rcases h.countPos with hcp | ⟨s0, hchain, hcnt0, -⟩
        · exact hcp t ht2.1
        · exfalso
          have hts := ht2.2
          have ht3 := ht2.1
          rw [hchain] at ht3 hs_chain
          simp at ht3 hs_chain
          exact hts (ht3.trans hs_chain.symm)
      refine ⟨hmetaAt, rfl, hs_chain, fun hz => absurd hne hz, ?_, ?_, hP⟩
      · intro _
        refine ⟨?_, rfl, ?_⟩
        · intro hmem
          have := (hmem_filter s).mp hmem
          exact this.2 rfl
        · intro r2 hr2
          exact Option.noConfusion hr2
      constructor
      case pcPos => exact h.pcPos
      case pcLt => exact h.pcLt
      case storeLen =>
        show (c.store.set s (some fC)).length = c.meta.capacity
        rw [List.length_set]
        exact h.storeLen
      case metaLen => exact h.metaLen
      case chainNodup => exact h.chainNodup.filter _
      case chainLt =>
        intro t ht
        exact h.chainLt t ((hmem_filter t).mp ht).1
      case resOk =>
        intro r2 hr2
        have hr2s : r2 = s := (Option.some_inj.mp hr2).symm
        subst hr2s
        refine ⟨hslt_cap, ?_⟩
        intro hmem
        exact ((hmem_filter r2).mp hmem).2 rfl
      case metaRep =>
        obtain ⟨mfl, hrepm, hndm, hiffm⟩ := h.metaRep
        refine ⟨mfl, hrepm, hndm, ?_⟩
        intro t ht
        rw [hlive2 t]
        rw [hiffm t ht]
        unfold Chain.liveSlot
        rw [hres]
        constructor
        · intro hc2 hc3
          exact hc2 (Or.inl hc3)
        · intro hc2 hc3
          rcases hc3 with hc3 | hc3
          · exact hc2 hc3
          · cases hc3
      case chunkWF =>
        intro t ht
        have ht2 : t ∈ c.chain := (hlive2 t).mp ht
        by_cases hts : t = s
        · subst hts
          exact ⟨fC, i :: fl, hstA_self, hfCwf⟩
        · obtain ⟨ch2, fl3, hst2, hwf3⟩ := h.chunkWF t (Or.inl ht2)
          exact ⟨ch2, fl3, by rw [hstA_ne t hts]; exact hst2, hwf3⟩
      case resEmpty =>
        intro r2 hr2
        have hr2s : r2 = s := (Option.some_inj.mp hr2).symm
        subst hr2s
        exact ⟨fC, i :: fl, hstA_self, hfCwf, hfllen⟩
      case storeNone =>
        intro t ht
        have hts : t ≠ s := by
          intro hh
          subst hh
          exact ht ((hlive2 t).mpr hs_chain)
        rw [hstA_ne t hts]
        refine h.storeNone t ?_
        intro hc2
        rcases hc2 with hc2 | hc2
        · exact ht ((hlive2 t).mpr hc2)
        · rw [hres] at hc2
          cases hc2
      case countPos => exact Or.inl hP
      case chainNE =>
        right
        rfl
    -- a different chunk was reserved: it is destroyed through the meta-pool
    case some =>
      have hrs : r ≠ s := fun hh => (h.resOk r hres).2 (hh ▸ hs_chain)
      have hrlt : r < c.meta.capacity := (h.resOk r hres).1
      have hrnc : r ∉ c.chain := (h.resOk r hres).2
      have hr_clen : r < c.meta.cells.length := by rw [h.metaLen]; exact hrlt
      have hr_slen : r < cA.store.length := by
        show r < (c.store.set s (some fC)).length
        rw [List.length_set, h.storeLen]
        exact hrlt
      have hmfree : cA.meta.free (r : Int) =
          (true, { c.meta with cells := c.meta.cells.set r c.meta.current, current := r }) :=
        Pool.free_in_range c.meta r hrlt
      have hsrp : cA.setReservedPool s =
          { cA with meta := { c.meta with cells := c.meta.cells.set r c.meta.current, current := r },
                    store := cA.store.set r none,
                    chain := cA.chain.filter (fun x => x != s),
                    reserved := some s } := by
        unfold Chain.setReservedPool
        rw [show cA.reserved = some r from hres]
        show ({ (if r ≠ s then cA.destroyChunk r else cA) with chain := (if r ≠ s then cA.destroyChunk r else cA).chain.filter (fun x => x != s), reserved := some s } : Chain) = _
        rw [if_pos hrs]
        unfold Chain.destroyChunk
        rw [hmfree]
      rw [hsrp]
      set c2 : Chain :=
        { cA with meta := { c.meta with cells := c.meta.cells.set r c.meta.current, current := r },
                  store := cA.store.set r none,
                  chain := cA.chain.filter (fun x => x != s),
                  reserved := some s } with hc2def
      have hstore2_r : c2.store.getD r none = none :=
        getD_set_self cA.store r none none hr_slen
      have hstore2_ne : ∀ t, t ≠ r → c2.store.getD t none = cA.store.getD t none := by
        intro t ht
        exact getD_set_ne cA.store none none (fun hh => ht hh.symm)
      have hlive2 : ∀ t, c2.liveSlot t ↔ t ∈ c.chain := by
        intro t
        unfold Chain.liveSlot
        show t ∈ c.chain.filter (fun x => x != s) ∨ some s = some t ↔ _
        rw [hmem_filter t]
        constructor
        · intro hc2
          rcases hc2 with hc2 | hc2
          · exact hc2.1
          · exact (Option.some_inj.mp hc2) ▸ hs_chain
        · intro hc2
          by_cases hts : t = s
          · exact Or.inr (by rw [hts])
          · exact Or.inl ⟨hc2, hts⟩
      have hP : ∀ t ∈ cA.chain.filter (fun x => x != s), 1 ≤ (c2.getChunk t).allocations := by
        intro t ht
        have ht2 := (hmem_filter t).mp ht
        have htr : t ≠ r := fun hh => hrnc (hh ▸ ht2.1)
        have hgc2 : c2.getChunk t = c.getChunk t := by
          unfold Chain.getChunk
          rw [hstore2_ne t htr, hstA_ne t ht2.2]
        rw [hgc2]
        rcases h.countPos with hcp | ⟨s0, hchain, hcnt0, -⟩
        · exact hcp t ht2.1
        · exfalso
          have hts := ht2.2
          have ht3 := ht2.1
          rw [hchain] at ht3 hs_chain
          simp at ht3 hs_chain
          exact hts (ht3.trans hs_chain.symm)
      refine ⟨hmetaAt, rfl, hs_chain, fun hz => absurd hne hz, ?_, ?_, hP⟩
      · intro _
        refine ⟨?_, rfl, ?_⟩
        · intro hmem
          exact ((hmem_filter s).mp hmem).2 rfl
        · intro r2 hr2
          have hrr2 : r = r2 := Option.some_inj.mp hr2
          subst hrr2
          exact hstore2_r
      constructor
      case pcPos => exact h.pcPos
      case pcLt => exact h.pcLt
      case storeLen =>
        show (cA.store.set r none).length = c.meta.capacity
        rw [List.length_set]
        show (c.store.set s (some fC)).length = c.meta.capacity
        rw [List.length_set]
        exact h.storeLen
      case metaLen =>
        show (c.meta.cells.set r c.meta.current).length = _
        rw [List.length_set]
        exact h.metaLen
      case chainNodup => exact h.chainNodup.filter _
      case chainLt =>
        intro t ht
        exact h.chainLt t ((hmem_filter t).mp ht).1
      case resOk =>
        intro r2 hr2
        have hr2s : r2 = s := (Option.some_inj.mp hr2).symm
        subst hr2s
        refine ⟨hslt_cap, ?_⟩
        intro hmem
        exact ((hmem_filter r2).mp hmem).2 rfl
      case metaRep =>
        obtain ⟨mfl, hrepm, hndm, hiffm⟩ := h.metaRep
        have hrnotm : r ∉ mfl := by
          intro hmem
          exact (hiffm r hrlt).mp hmem (Or.inr hres)
        refine ⟨r :: mfl, ?_, List.nodup_cons.mpr ⟨hrnotm, hndm⟩, ?_⟩
        · rw [poolRep_cons]
          refine ⟨rfl, hrlt, ?_⟩
          rw [getD_set_self c.meta.cells r c.meta.current 0 hr_clen]
          rw [poolRep_set_not_mem hrnotm]
          exact hrepm
        · intro t ht
          rw [hlive2 t]
          by_cases htr : t = r
          · subst htr
            simp [hrnc]
          · constructor
            · intro hmem hc3
              rcases List.mem_cons.mp hmem with hc4 | hc4
              · exact htr hc4
              · exact (hiffm t ht).mp hc4 (Or.inl hc3)
            · intro hc3
              refine List.mem_cons_of_mem r ?_
              refine (hiffm t ht).mpr ?_
              intro hc4
              rcases hc4 with hc4 | hc4
              · exact hc3 hc4
              · rw [hres] at hc4
                exact htr (Option.some_inj.mp hc4).symm
      case chunkWF =>
        intro t ht
        have ht2 : t ∈ c.chain := (hlive2 t).mp ht
        have htr : t ≠ r := fun hh => hrnc (hh ▸ ht2)
        by_cases hts : t = s
        · subst hts
          exact ⟨fC, i :: fl, by rw [hstore2_ne t htr]; exact hstA_self, hfCwf⟩
        · obtain ⟨ch2, fl3, hst2, hwf3⟩ := h.chunkWF t (Or.inl ht2)
          refine ⟨ch2, fl3, ?_, hwf3⟩
          rw [hstore2_ne t htr, hstA_ne t hts]
          exact hst2
      case resEmpty =>
        intro r2 hr2
        have hr2s : r2 = s := (Option.some_inj.mp hr2).symm
        subst hr2s
        have hsr : r2 ≠ r := Ne.symm hrs
        exact ⟨fC, i :: fl, by rw [hstore2_ne r2 hsr]; exact hstA_self, hfCwf, hfllen⟩
      case storeNone =>
        intro t ht
        by_cases htr : t = r
        · subst htr
          exact hstore2_r
        · have hts : t ≠ s := by
            intro hh
            subst hh
            exact ht ((hlive2 t).mpr hs_chain)
          rw [hstore2_ne t htr, hstA_ne t hts]
          refine h.storeNone t ?_
          intro hc2
          rcases hc2 with hc2 | hc2
          · exact ht ((hlive2 t).mpr hc2)
          · rw [hres] at hc2
            exact htr (Option.some_inj.mp hc2).symm
      case countPos => exact Or.inl hP
      case chainNE =>
        right
        rfl

/-! ## Invariant combinators, initial state and runs -/

theorem chainInv_alloc (c : Chain) (h : ChainInv c) : ChainInv (c.alloc).2 := by
  cases hf : c.chain.find? (fun t => !(c.getChunk t).pool.nospace) with
  | some s => exact (chain_alloc_hit c h hf).2.2.2.2.1
  | none =>
    cases hr : c.reserved with
    | some r => exact (chain_alloc_promote c h hf hr).2.2.2.2.2.1
    | none =>
      cases hm : c.meta.nospace with
      | false => exact (chain_alloc_fresh c h hf hr hm).2.2.2.2.1
      | true =>
        rw [chain_alloc_fail c hf hr hm]
        exact h

theorem chain_alloc_none_iff (c : Chain) (h : ChainInv c) :
    (c.alloc).1 = none ↔
      ((∀ s ∈ c.chain, (c.getChunk s).pool.nospace = true) ∧ c.reserved = none ∧
        c.meta.nospace = true) := by
  constructor
  · intro hn
    cases hf : c.chain.find? (fun t => !(c.getChunk t).pool.nospace) with
    | some s =>
      rw [(chain_alloc_hit c h hf).1] at hn
      cases hn
    | none =>
      have hfull : ∀ s ∈ c.chain, (c.getChunk s).pool.nospace = true := by
        intro t ht
        have := List.find?_eq_none.mp hf t ht
        simpa using this
      cases hr : c.reserved with
      | some r =>
        rw [(chain_alloc_promote c h hf hr).1] at hn
        cases hn
      | none =>
        cases hm : c.meta.nospace with
        | false =>
          rw [(chain_alloc_fresh c h hf hr hm).1] at hn
          cases hn
        | true => exact ⟨hfull, rfl, rfl⟩
  · rintro ⟨hfull, hr, hm⟩
    have hf : c.chain.find? (fun t => !(c.getChunk t).pool.nospace) = none := by
      rw [List.find?_eq_none]
      intro t ht
      simp [hfull t ht]
    rw [chain_alloc_fail c hf hr hm]

theorem chain_init_eq (pc ps : Nat) (hps : 0 < ps) :
    Chain.init pc ps = ⟨pc, ⟨ps, initCells ps, (initCells ps).getD 0 0⟩,
      (List.replicate ps none).set 0 (some (freshChunk pc)), [0], none⟩ := by
  unfold Chain.init
  have halloc : (Pool.init ps).alloc =
      (some 0, ⟨ps, initCells ps, (initCells ps).getD 0 0⟩) := by
    unfold Pool.alloc Pool.init
    rw [if_neg (by omega : ¬ (0 = ps))]
  rw [halloc]

theorem chainInv_init (pc ps : Nat) (hpc : 0 < pc) (hpc32 : pc < u32Mod) (hps : 0 < ps) :
    ChainInv (Chain.init pc ps) := by
  rw [chain_init_eq pc ps hps]
  have hstore0 : ((List.replicate ps (none : Option Chunk)).set 0
      (some (freshChunk pc))).getD 0 none = some (freshChunk pc) :=
    getD_set_self (List.replicate ps none) 0 (some (freshChunk pc)) none
      (by rw [List.length_replicate]; exact hps)
  constructor
  case pcPos => exact hpc
  case pcLt => exact hpc32
  case storeLen =>
    show ((List.replicate ps (none : Option Chunk)).set 0 (some (freshChunk pc))).length = ps
    rw [List.length_set, List.length_replicate]
  case metaLen => exact initCells_length ps
  case chainNodup => simp
  case chainLt =>
    intro t ht
    simp at ht
    subst ht
    show (0 : Nat) < ps
    exact hps
  case resOk =>
    intro r hr
    cases hr
  case metaRep =>
    refine ⟨List.range' 1 (ps - 1), ?_, List.nodup_range' 1 (ps - 1), ?_⟩
    · rw [initCells_getD hps]
      exact poolRep_range' (ps - 1) 1 (by omega)
    · intro t ht
      have ht2 : t < ps := ht
      unfold Chain.liveSlot
      show t ∈ List.range' 1 (ps - 1) ↔ ¬ (t ∈ [0] ∨ none = some t)
      rw [List.mem_range'_1]
      simp
      omega
  case chunkWF =>
    intro t ht
    have ht0 : t = 0 := by
      rcases ht with ht | ht
      · simpa using ht
      · cases ht
    subst ht0
    exact ⟨freshChunk pc, List.range pc, hstore0, ChunkWF_fresh pc 0⟩
  case resEmpty =>
    intro r hr
    cases hr
  case storeNone =>
    intro t ht
    have ht0 : t ≠ 0 := by
      intro hh
      subst hh
      exact ht (Or.inl (by simp))
    rw [getD_set_ne (List.replicate ps none) (some (freshChunk pc)) none (fun hh => ht0 hh.symm)]
    exact getD_replicate_none ps t
  case countPos =>
    right
    refine ⟨0, rfl, ?_, rfl⟩
    rw [getChunk_of_store hstore0]
    rfl
  case chainNE =>
    left
    simp

theorem chain_init_used (pc ps sm ptr cm : Nat) (hps : 0 < ps) :
    (Chain.init pc ps).used_memory sm ptr cm = sm + cm + ptr := by
  rw [chain_init_eq pc ps hps]
  unfold Chain.used_memory
  simp

theorem chainInv_run (ops : List COp) :
    ∀ c : Chain, ChainInv c → c.validOps ops → ChainInv (c.run ops) := by
  induction ops with
  | nil => exact fun c h _ => h
  | cons op rest ih =>
    intro c h hv
    cases op with
    | alloc => exact ih _ (chainInv_alloc c h) hv
    | free s i =>
      obtain ⟨hla, hv2⟩ := hv
      exact ih _ (chain_free_spec c h hla).2.2.2.2.2.1 hv2

theorem chain_end_shape (c : Chain) (h : ChainInv c) (hz : c.allFreed) :
    (c.chain = [] ∧ ∃ r, c.reserved = some r) ∨
    (∃ s, c.chain = [s] ∧ c.reserved = none) := by
  rcases h.countPos with hcp | ⟨s0, hchain, hcnt0, hres⟩
  · cases hch : c.chain with
    | nil =>
      left
      refine ⟨rfl, ?_⟩
      rcases h.chainNE with hne | hne
      · exact absurd hch hne
      · exact Option.isSome_iff_exists.mp hne
    | cons t rest =>
      exfalso
      have hmem : t ∈ c.chain := by
        rw [hch]
        exact List.mem_cons_self t rest
      have h1 := hcp t hmem
      have h0 := hz t (Or.inl hmem)
      omega
  · right
    exact ⟨s0, hchain, hres⟩

theorem chain_init_no_live (pc ps : Nat) (hps : 0 < ps) (a : Nat × Nat) :
    ¬ LiveAddr (Chain.init pc ps) a := by
  rw [chain_init_eq pc ps hps]
  rintro ⟨hlive, hilt, ch, fl, hst, hwf, hni⟩
  have ha1 : a.1 = 0 := by
    rcases hlive with hc | hc
    · simpa using hc
    · exact Option.noConfusion hc
  have h0 : ((List.replicate ps (none : Option Chunk)).set 0 (some (freshChunk pc))).getD 0 none
      = some (freshChunk pc) :=
    getD_set_self (List.replicate ps none) 0 (some (freshChunk pc)) none
      (by rw [List.length_replicate]; exact hps)
  rw [ha1] at hst
  have hch : ch = freshChunk pc := (Option.some_inj.mp (h0.symm.trans hst)).symm
  subst hch
  have hrep : poolRep (initCells pc) pc 0 fl = true := hwf.1
  have hfl : fl = List.range pc := poolRep_unique hrep (poolRep_init pc)
  have hilt2 : a.2 < pc := hilt
  refine hni ?_
  rw [hfl]
  exact List.mem_range.mpr hilt2

theorem chain_noalloc_nil (pc ps : Nat) (hps : 0 < ps) (ops : List COp)
    (hna : COp.alloc ∉ ops) (hv : (Chain.init pc ps).validOps ops) : ops = [] := by
  cases ops with
  | nil => rfl
  | cons op rest =>
    cases op with
    | alloc => exact absurd (List.mem_cons_self _ _) hna
    | free s i => exact absurd hv.1 (chain_init_no_live pc ps hps (s, i))

theorem chain_alloc_allLivePos (c : Chain) (h : ChainInv c) (hP : c.allLivePos) :
    (c.alloc).2.allLivePos := by
  cases hf : c.chain.find? (fun t => !(c.getChunk t).pool.nospace) with
  | some s => exact (chain_alloc_hit c h hf).2.2.2.2.2
  | none =>
    cases hr : c.reserved with
    | some r => exact (chain_alloc_promote c h hf hr).2.2.2.2.2.2
    | none =>
      cases hm : c.meta.nospace with
      | false => exact (chain_alloc_fresh c h hf hr hm).2.2.2.2.2
      | true =>
        rw [chain_alloc_fail c hf hr hm]
        exact hP

theorem chain_init_alloc_allLivePos (pc ps : Nat) (hpc : 0 < pc) (hpc32 : pc < u32Mod)
    (hps : 0 < ps) : ((Chain.init pc ps).alloc).2.allLivePos := by
  have h0 := chainInv_init pc ps hpc hpc32 hps
  have hg : (Chain.init pc ps).getChunk 0 = freshChunk pc := by
    rw [chain_init_eq pc ps hps]
    exact getChunk_of_store (getD_set_self (List.replicate ps none) 0 (some (freshChunk pc)) none
      (by rw [List.length_replicate]; exact hps))
  have hns : ((Chain.init pc ps).getChunk 0).pool.nospace = false := by
    rw [hg]
    show (Pool.init pc).nospace = false
    simp [Pool.init, Pool.nospace]
    omega
  have hchain : (Chain.init pc ps).chain = [0] := by rw [chain_init_eq pc ps hps]
  have hf : (Chain.init pc ps).chain.find?
      (fun t => !((Chain.init pc ps).getChunk t).pool.nospace) = some 0 := by
    rw [hchain]
    exact List.find?_cons_of_pos _ (by simp [hns])
  exact (chain_alloc_hit _ h0 hf).2.2.2.2.2

theorem chain_run_allLivePos (ops : List COp) :
    ∀ c : Chain, ChainInv c → c.allLivePos → c.validOps ops → (c.run ops).allLivePos := by
  induction ops with
  | nil => exact fun c _ hP _ => hP
  | cons op rest ih =>
    intro c h hP hv
    cases op with
    | alloc => exact ih _ (chainInv_alloc c h) (chain_alloc_allLivePos c h hP) hv
    | free s i =>
      obtain ⟨hla, hv2⟩ := hv
      exact ih _ (chain_free_spec c h hla).2.2.2.2.2.1
        (chain_free_spec c h hla).2.2.2.2.2.2 hv2

/-- C1: the single-threaded chained pool serves every allocation from the
first chunk of the active list with free capacity; when all active chunks are
full it promotes the reserved chunk if one exists, else creates a chunk
through the meta-pool when that pool has room, serving from the appended
chunk; it returns null exactly when every active chunk is full, the reserved
slot is empty and the meta-pool has no room.  With chunk capacity 2 and at
most 2 chunks, the fifth allocation returns null and, after one release, the
next allocation returns that cell of the chunk that had room. -/
theorem C1_chained_alloc_policy (c : Chain) (h : ChainInv c) : ChainAllocPolicy c := by
  refine ⟨?_, ?_, ?_, chain_alloc_none_iff c h, by decide⟩
  · intro s hs hns
    cases hf : c.chain.find? (fun t => !(c.getChunk t).pool.nospace) with
    | none =>
      exfalso
      have := List.find?_eq_none.mp hf s hs
      simp [hns] at this
    | some s0 =>
      obtain ⟨l1, l2, hsplit, hall, hpred⟩ := find?_split hf
      refine ⟨s0, l1, l2, hsplit, ?_, by simpa using hpred, (chain_alloc_hit c h hf).1⟩
      intro t ht
      have := hall t ht
      simpa using this
  · intro hfull r hr
    have hf : c.chain.find? (fun t => !(c.getChunk t).pool.nospace) = none := by
      rw [List.find?_eq_none]
      intro t ht
      simp [hfull t ht]
    have h2 := chain_alloc_promote c h hf hr
    exact ⟨h2.1, h2.2.1⟩
  · intro hfull hr hm
    have hf : c.chain.find? (fun t => !(c.getChunk t).pool.nospace) = none := by
      rw [List.find?_eq_none]
      intro t ht
      simp [hfull t ht]
    have h3 := chain_alloc_fresh c h hf hr hm
    exact ⟨c.meta.current, h3.2.2.2.1, h3.1, h3.2.1⟩

theorem C1_chained_alloc_policy_witness : ChainAllocPolicy (Chain.init 2 2) :=
  C1_chained_alloc_policy (Chain.init 2 2)
    (chainInv_init 2 2 (by decide) (by decide) (by decide))

/-- C4: chained pool invariant.  At most one chunk sits in the reserved slot
(the slot is a single pointer; two simultaneous occupants coincide) and that
chunk is empty: counter 0 and every cell on its free list.  Every alloc,
free, create and destroy preserves the full invariant.  A free that brings a
chunk counter to 0 removes the chunk from the active list, installs it as
reserved and destroys the previously reserved chunk if it was a different
one.  An allocation finding no free capacity promotes the reserved chunk
without creating anything through the meta-pool. -/
theorem C4_chained_reserved_invariant (c : Chain) (h : ChainInv c) :
    ChainReservedInvariant c := by
  refine ⟨chainInv_alloc c h, chainInv_alloc c h, ?_, ?_, ?_, ?_, ?_, ?_⟩
  · exact fun a ha => (chain_free_spec c h ha).2.2.2.2.2.1
  · exact fun a ha => (chain_free_spec c h ha).2.2.2.2.2.1
  · intro r r2 h1 h2
    exact Option.some_inj.mp (h1.symm.trans h2)
  · intro r hr
    obtain ⟨ch, fl, hst, hwf, hlen⟩ := h.resEmpty r hr
    refine ⟨?_, ch, fl, hst, hwf, hlen, ?_⟩
    · rw [getChunk_of_store hst]
      have hcnt := hwf.2.2.2.2.2.2.1
      omega
    · exact nodup_full_mem hwf.2.1 (poolRep_mem_lt hwf.1) hlen
  · exact fun a ha => (chain_free_spec c h ha).2.2.2.2.1
  · intro hfull r hr
    have hf : c.chain.find? (fun t => !(c.getChunk t).pool.nospace) = none := by
      rw [List.find?_eq_none]
      intro t ht
      simp [hfull t ht]
    have h2 := chain_alloc_promote c h hf hr
    exact ⟨h2.2.2.2.1, h2.2.1, h2.2.2.2.2.1⟩

theorem C4_chained_reserved_invariant_witness : ChainReservedInvariant (Chain.init 2 2) :=
  C4_chained_reserved_invariant (Chain.init 2 2)
    (chainInv_init 2 2 (by decide) (by decide) (by decide))

/-- C7: for every live pointer of the chained pool the metadata record inside
the cell stores the owning chunk, and getMetaInfo recovers exactly that
chunk; the record sits at align_up(p + payload_bytes, alignof metadata), the
cell size kAllocationSize is the caller-visible request plus the record plus
the padding that keeps the record naturally aligned. -/
theorem C7_chained_metadata (c : Chain) (a : Nat × Nat) (p size : Nat)
    (h : ChainInv c) (ha : LiveAddr c a) (hp : p % metaAlign = 0) (hs : 0 < size) :
    ChainMetadataSpec c a p size := by
  refine ⟨(chain_free_spec c h ha).1, ha.1, ?_, ?_, ?_, ?_, ?_⟩
  · unfold metaInfoAddr metaOffset alignUp metaAlign
    unfold metaAlign at hp
    omega
  · unfold kAllocationSize metaOffset alignUp metaAlign metaSize
    omega
  · unfold metaOffset alignUp metaAlign
    omega
  · unfold metaOffset alignUp metaAlign
    omega
  · unfold metaOffset alignUp metaAlign
    omega

theorem C7_chained_metadata_witness :
    ChainMetadataSpec ((Chain.init 2 2).alloc).2 (0, 0) 16 24 :=
  C7_chained_metadata ((Chain.init 2 2).alloc).2 (0, 0) 16 24
    (chainInv_alloc (Chain.init 2 2) (chainInv_init 2 2 (by decide) (by decide) (by decide)))
    ⟨Or.inl (by decide), by decide,
      ⟨⟨⟨2, [1, 2], 1⟩, 1, [0, 0]⟩, [1], by decide,
        (by unfold ChunkWF; decide : ChunkWF 2 0 ⟨⟨2, [1, 2], 1⟩, 1, [0, 0]⟩ [1]), by decide⟩⟩
    (by decide) (by decide)

/-- C6 amended: for any valid trace of the chained pool in which every
allocation is matched by a release, the end state leaks no chunk: every slot
of the meta-pool still holding a chunk is in the active list or is the single
reserved chunk.  The used_memory at the end equals its post-construction
value when nothing was ever allocated, and equals that value minus the size
of one active-list node pointer otherwise, because the sole surviving chunk
has been retired from the active list into the reserved slot. -/
theorem C6_chained_round_trip (pc ps sm ptr cm : Nat) (ops : List COp)
    (hpc : 0 < pc) (hpc32 : pc < u32Mod) (hps : 0 < ps)
    (hv : (Chain.init pc ps).validOps ops)
    (hz : ((Chain.init pc ps).run ops).allFreed) :
    ChainRoundTrip pc ps sm ptr cm ops := by
  have h0 := chainInv_init pc ps hpc hpc32 hps
  have hE := chainInv_run ops _ h0 hv
  have hinit := chain_init_used pc ps sm ptr cm hps
  refine ⟨?_, ?_, ?_⟩
  · intro t ht
    by_contra hcon
    exact ht (hE.storeNone t hcon)
  · intro hna
    have hnil : ops = [] := chain_noalloc_nil pc ps hps ops hna hv
    subst hnil
    rfl
  · intro hmem
    cases ops with
    | nil => exact absurd hmem (List.not_mem_nil _)
    | cons op rest =>
      cases op with
      | free si ii => exact absurd hv.1 (chain_init_no_live pc ps hps (si, ii))
      | alloc =>
        have hInv1 : ChainInv ((Chain.init pc ps).alloc).2 := chainInv_alloc _ h0
        have hP1 := chain_init_alloc_allLivePos pc ps hpc hpc32 hps
        have hPE : ((Chain.init pc ps).run (COp.alloc :: rest)).allLivePos :=
          chain_run_allLivePos rest _ hInv1 hP1 hv
        have hch : ((Chain.init pc ps).run (COp.alloc :: rest)).chain = [] := by
          cases hc : ((Chain.init pc ps).run (COp.alloc :: rest)).chain with
          | nil => rfl
          | cons t ts =>
            exfalso
            have hmem2 : t ∈ ((Chain.init pc ps).run (COp.alloc :: rest)).chain := by
              rw [hc]
              exact List.mem_cons_self t ts
            have h1 := hPE t hmem2
            have h2 := hz t (Or.inl hmem2)
            omega
        obtain ⟨r, hr⟩ : ∃ r, ((Chain.init pc ps).run (COp.alloc :: rest)).reserved = some r := by
          rcases hE.chainNE with hne | hne
          · exact absurd hch hne
          · exact Option.isSome_iff_exists.mp hne
        have hend : ((Chain.init pc ps).run (COp.alloc :: rest)).used_memory sm ptr cm
            = sm + cm := by
          unfold Chain.used_memory
          rw [hch, hr]
          simp
        rw [hend, hinit]

/-- C6 counterexample: on a chained pool with chunk capacity 1 and one meta
slot, the balanced valid trace of one allocation followed by its release ends
with used_memory different from the post-construction value: the initial
chunk has been retired into the reserved slot, saving one active-list node
pointer (instance: static term 128, pointer size 8, chunk footprint 96:
224 versus 232). -/
theorem C6_chained_round_trip_counterexample :
    (Chain.init 1 1).validOps [COp.alloc, COp.free 0 0] ∧
    ((Chain.init 1 1).run [COp.alloc, COp.free 0 0]).allFreed ∧
    ((Chain.init 1 1).run [COp.alloc, COp.free 0 0]).used_memory 128 8 96 ≠
      (Chain.init 1 1).used_memory 128 8 96 := by
  refine ⟨?_, ?_, by decide⟩
  · show LiveAddr ((Chain.init 1 1).alloc).2 (0, 0) ∧ True
    exact ⟨⟨Or.inl (by decide), by decide,
      ⟨⟨⟨1, [1], 1⟩, 1, [0]⟩, [], by decide,
        (by unfold ChunkWF; decide : ChunkWF 1 0 ⟨⟨1, [1], 1⟩, 1, [0]⟩ []), by decide⟩⟩, trivial⟩
  · intro t ht
    have hrun : (Chain.init 1 1).run [COp.alloc, COp.free 0 0] =
        ⟨1, ⟨1, [1], 1⟩, [some ⟨⟨1, [1], 0⟩, 0, [0]⟩], [], some 0⟩ := by decide
    rw [hrun] at ht ⊢
    rcases ht with ht | ht
    · exact absurd ht (List.not_mem_nil t)
    · have ht0 : t = 0 := (Option.some_inj.mp ht).symm
      subst ht0
      decide

theorem C6_chained_round_trip_witness : ChainRoundTrip 1 1 128 8 96 [COp.alloc, COp.free 0 0] :=
  C6_chained_round_trip 1 1 128 8 96 [COp.alloc, COp.free 0 0]
    (by decide) (by decide) (by decide)
    (by
      show LiveAddr ((Chain.init 1 1).alloc).2 (0, 0) ∧ True
      exact ⟨⟨Or.inl (by decide), by decide,
        ⟨⟨⟨1, [1], 1⟩, 1, [0]⟩, [], by decide,
          (by unfold ChunkWF; decide : ChunkWF 1 0 ⟨⟨1, [1], 1⟩, 1, [0]⟩ []), by decide⟩⟩, trivial⟩)
    (by
      intro t ht
      have hrun : (Chain.init 1 1).run [COp.alloc, COp.free 0 0] =
          ⟨1, ⟨1, [1], 1⟩, [some ⟨⟨1, [1], 0⟩, 0, [0]⟩], [], some 0⟩ := by decide
      rw [hrun] at ht ⊢
      rcases ht with ht | ht
      · exact absurd ht (List.not_mem_nil t)
      · have ht0 : t = 0 := (Option.some_inj.mp ht).symm
        subst ht0
        decide)

end Allocators
